import Mathlib

/- Verification of the mate-solver core of CP468-ChessSolver.

The repository delegates all chess rules (legal moves, check, mate,
stalemate, push/pop of moves, piece occupancy) to an external rules
engine; the core under verification is the position evaluator, the
heuristic move orderer, the plain alpha-beta searcher, the budgeted
alpha-beta searcher with early mate cutoff, and the mate-sequence
driver.  We embed the rules engine as an abstract interface `Rules`
and translate the two Python search implementations over it. -/

namespace ChessSolver

/- Scores: the Python code mixes exact integers with the floats
`-math.inf` and `math.inf` (used only as initial bests and as the
default alpha/beta window).  We model this with integers extended by
a bottom and a top element. -/
abbrev EInt := WithBot (WithTop ℤ)

/-- Embed an exact integer score into the extended score type. -/
def toE (z : ℤ) : EInt := ((z : WithTop ℤ) : EInt)

inductive PieceKind where
  | pawn
  | knight
  | bishop
  | rook
  | queen
  | king
deriving DecidableEq, Repr

structure Piece where
  kind : PieceKind
  white : Bool
deriving DecidableEq, Repr

/-- Abstract interface of the external chess rules engine.  `P` is the
type of positions, `Mv` the type of moves.  `push` is the functional
counterpart of the in-place `board.push`; `isCheck p` reports whether
the side to move in `p` is in check; `isCapture p m` whether move `m`
is a capture in `p`; `pieceAt p sq` the occupant of square `sq`. -/
structure Rules (P Mv : Type) where
  turnWhite : P → Bool
  isCheckmate : P → Bool
  isStalemate : P → Bool
  isGameOver : P → Bool
  isCheck : P → Bool
  isCapture : P → Mv → Bool
  legalMoves : P → List Mv
  push : P → Mv → P
  pieceAt : P → Nat → Option Piece

def MATE_SCORE : ℤ := 100000

/-- Piece material values from `evaluate_position`. -/
def piece_values : PieceKind → ℤ
  | .pawn => 100
  | .knight => 300
  | .bishop => 300
  | .rook => 500
  | .queen => 900
  | .king => 0

/-- Signed value contributed by one square's occupant. -/
def squareValue (pc : Option Piece) : ℤ :=
  match pc with
  | none => 0
  | some pc => if pc.white then piece_values pc.kind else -piece_values pc.kind

/-- Material sum over the 64 squares, exactly as the `for square in
chess.SQUARES` loop of `evaluate_position`. -/
def material {P Mv : Type} (r : Rules P Mv) (p : P) : ℤ :=
  (List.range 64).foldl (fun s sq => s + squareValue (r.pieceAt p sq)) 0

/-- The evaluator `evaluate_position(board, depth)` shared by both
source files: checkmate scores `±(MATE_SCORE - depth)` (negative when
White is the side to move, i.e. White is mated), stalemate scores 0,
otherwise the material sum. -/
def evaluate_position {P Mv : Type} (r : Rules P Mv) (p : P) (depth : Nat) : ℤ :=
  if r.isCheckmate p then
    if r.turnWhite p then -MATE_SCORE + depth else MATE_SCORE - depth
  else if r.isStalemate p then 0
  else material r p

/-- Heuristic move score from `ordered_moves.score_move`: 10000 if the
move gives check (the Python code pushes the move, asks `is_check`,
and pops), plus 5000 if it is a capture on the original board. -/
def score_move {P Mv : Type} (r : Rules P Mv) (p : P) (m : Mv) : ℤ :=
  (if r.isCheck (r.push p m) then 10000 else 0) +
    (if r.isCapture p m then 5000 else 0)

/- Python's `list.sort(key=..., reverse=True)` is a stable descending
sort.  We model it with insertion sort: an element is inserted after
every earlier element whose key is strictly greater, and before the
first element whose key is less than or equal to its own, which keeps
equal-key elements in their original relative order. -/

/-- Insert `x` into a descending-sorted list, after all strictly
greater keys. -/
def insertDesc {α : Type} (key : α → ℤ) (x : α) : List α → List α
  | [] => [x]
  | y :: ys => if key x < key y then y :: insertDesc key x ys else x :: y :: ys

/-- Stable descending sort by an integer key. -/
def sortKeyed {α : Type} (key : α → ℤ) : List α → List α
  | [] => []
  | x :: xs => insertDesc key x (sortKeyed key xs)

/-- The move orderer `ordered_moves(board)`: the legal moves, stably
sorted by descending heuristic score. -/
def ordered_moves {P Mv : Type} (r : Rules P Mv) (p : P) : List Mv :=
  sortKeyed (score_move r p) (r.legalMoves p)

/- The plain searcher of `mate_solver.py`: fixed-depth minimax with
alpha-beta pruning, no move ordering, no node budget, no early mate
cutoff.  The maximizing (White) and minimizing (Black) for-loops are
modelled as list recursions; `F` stands for the recursive call one
ply deeper, returning only the score (the Python code discards the
child's move).  In each iteration the running best is updated on
strict improvement, then alpha (resp. beta) is updated from the
running best, then the loop breaks if `beta <= alpha`. -/
namespace Plain

def abMaxLoop {P Mv : Type} (psh : P → Mv → P) (F : P → EInt → EInt → EInt) (p : P) :
    List Mv → EInt → EInt → EInt → Option Mv → EInt × Option Mv
  | [], _, _, m, best => (m, best)
  | mv :: rest, alpha, beta, m, best =>
    let s := F (psh p mv) alpha beta
    let m2 := if m < s then s else m
    let b2 := if m < s then some mv else best
    let alpha2 := max alpha m2
    if beta ≤ alpha2 then (m2, b2) else abMaxLoop psh F p rest alpha2 beta m2 b2

def abMinLoop {P Mv : Type} (psh : P → Mv → P) (F : P → EInt → EInt → EInt) (p : P) :
    List Mv → EInt → EInt → EInt → Option Mv → EInt × Option Mv
  | [], _, _, m, best => (m, best)
  | mv :: rest, alpha, beta, m, best =>
    let s := F (psh p mv) alpha beta
    let m2 := if s < m then s else m
    let b2 := if s < m then some mv else best
    let beta2 := min beta m2
    if beta2 ≤ alpha then (m2, b2) else abMinLoop psh F p rest alpha beta2 m2 b2

/-- `minimax_alpha_beta_search` of `mate_solver.py`.  Depth 0 and
game-over positions return the static evaluation with no move;
otherwise White maximizes over `board.legal_moves` and Black
minimizes, with the standard alpha-beta updates. -/
def minimax_alpha_beta_search {P Mv : Type} (r : Rules P Mv) :
    Nat → P → EInt → EInt → EInt × Option Mv
  | 0, p, _, _ => (toE (evaluate_position r p 0), none)
  | d + 1, p, alpha, beta =>
    if r.isGameOver p then (toE (evaluate_position r p (d + 1)), none)
    else if r.turnWhite p then
      abMaxLoop r.push (fun q a b => (minimax_alpha_beta_search r d q a b).1) p
        (r.legalMoves p) alpha beta ⊥ none
    else
      abMinLoop r.push (fun q a b => (minimax_alpha_beta_search r d q a b).1) p
        (r.legalMoves p) alpha beta ⊤ none

end Plain

/- The searcher of the `part_000` drafts: same alpha-beta skeleton,
plus a session node counter checked against a fixed budget at every
invocation, heuristic move ordering, and an early mate cutoff that
returns as soon as the running best reaches `MATE_SCORE - depth`
(maximizer) or `-MATE_SCORE + depth` (minimizer).  The node counter
is threaded explicitly: every search call takes the counter and
returns the updated counter alongside the result. -/
namespace Budgeted

def budMaxLoop {P Mv : Type} (psh : P → Mv → P)
    (F : P → EInt → EInt → Nat → EInt × Nat) (p : P) (thresh : EInt) :
    List Mv → EInt → EInt → EInt → Option Mv → Nat → (EInt × Option Mv) × Nat
  | [], _, _, m, best, n => ((m, best), n)
  | mv :: rest, alpha, beta, m, best, n =>
    let sn := F (psh p mv) alpha beta n
    if m < sn.1 then
      if thresh ≤ sn.1 then ((sn.1, some mv), sn.2)
      else
        let alpha2 := max alpha sn.1
        if beta ≤ alpha2 then ((sn.1, some mv), sn.2)
        else budMaxLoop psh F p thresh rest alpha2 beta sn.1 (some mv) sn.2
    else
      let alpha2 := max alpha m
      if beta ≤ alpha2 then ((m, best), sn.2)
      else budMaxLoop psh F p thresh rest alpha2 beta m best sn.2

def budMinLoop {P Mv : Type} (psh : P → Mv → P)
    (F : P → EInt → EInt → Nat → EInt × Nat) (p : P) (thresh : EInt) :
    List Mv → EInt → EInt → EInt → Option Mv → Nat → (EInt × Option Mv) × Nat
  | [], _, _, m, best, n => ((m, best), n)
  | mv :: rest, alpha, beta, m, best, n =>
    let sn := F (psh p mv) alpha beta n
    if sn.1 < m then
      if sn.1 ≤ thresh then ((sn.1, some mv), sn.2)
      else
        let beta2 := min beta sn.1
        if beta2 ≤ alpha then ((sn.1, some mv), sn.2)
        else budMinLoop psh F p thresh rest alpha beta2 sn.1 (some mv) sn.2
    else
      let beta2 := min beta m
      if beta2 ≤ alpha then ((m, best), sn.2)
      else budMinLoop psh F p thresh rest alpha beta2 m best sn.2

/-- `minimax_alpha_beta_search` of `part_000`: increments the node
counter, returns the static evaluation when the counter exceeds the
budget `maxN`, when depth is 0, or when the game is over (at depth 0
the budget check and the terminal check return the same value, so the
two branches coincide), and otherwise runs the alpha-beta loop over
the ordered moves with the early mate cutoff threshold
`MATE_SCORE - depth`. -/
def minimax_alpha_beta_search {P Mv : Type} (r : Rules P Mv) (maxN : Nat) :
    Nat → P → EInt → EInt → Nat → (EInt × Option Mv) × Nat
  | 0, p, _, _, n => ((toE (evaluate_position r p 0), none), n + 1)
  | d + 1, p, alpha, beta, n =>
    if maxN < n + 1 then ((toE (evaluate_position r p (d + 1)), none), n + 1)
    else if r.isGameOver p then ((toE (evaluate_position r p (d + 1)), none), n + 1)
    else if r.turnWhite p then
      budMaxLoop r.push
        (fun q a b nn =>
          let x := minimax_alpha_beta_search r maxN d q a b nn
          (x.1.1, x.2))
        p (toE (MATE_SCORE - ((d : ℤ) + 1))) (ordered_moves r p) alpha beta ⊥ none (n + 1)
    else
      budMinLoop r.push
        (fun q a b nn =>
          let x := minimax_alpha_beta_search r maxN d q a b nn
          (x.1.1, x.2))
        p (toE (-MATE_SCORE + ((d : ℤ) + 1))) (ordered_moves r p) alpha beta ⊤ none (n + 1)

/-- `get_mate_sequence` of `part_000`, written with the number of
remaining loop iterations as fuel: iteration `move_num` of the Python
loop searches at `remaining_depth = search_depth - move_num`, which
equals the fuel.  The node counter is reset once before the loop and
threaded through the successive searches.  The loop stops when the
search returns no move, or as soon as the applied move gives
checkmate. -/
def mateSeqGo {P Mv : Type} (r : Rules P Mv) (maxN : Nat) :
    Nat → P → Nat → List Mv
  | 0, _, _ => []
  | k + 1, p, n =>
    let res := minimax_alpha_beta_search r maxN (k + 1) p ⊥ ⊤ n
    match res.1.2 with
    | none => []
    | some mv =>
      if r.isCheckmate (r.push p mv) then [mv]
      else mv :: mateSeqGo r maxN k (r.push p mv) res.2

/-- The driver: works on an independent copy of the starting position
(a no-op in this functional model), resets the node counter to 0, and
assembles the sequence. -/
def get_mate_sequence {P Mv : Type} (r : Rules P Mv) (maxN : Nat) (p : P)
    (searchDepth : Nat) : List Mv :=
  mateSeqGo r maxN searchDepth p 0

end Budgeted

/- Mutable-board model.  `python-chess` boards carry a move stack:
`push` applies a move and records the previous state, `pop` restores
it.  To state the frame property (the searcher and the move orderer
leave the board exactly as they found it, on every exit path) we
thread this stack-carrying state through an embedding that mirrors
the push/recurse/pop structure of the source line by line. -/

structure BoardSt (P : Type) where
  cur : P
  stack : List P
deriving DecidableEq, Repr

def pushB {P Mv : Type} (r : Rules P Mv) (b : BoardSt P) (m : Mv) : BoardSt P :=
  ⟨r.push b.cur m, b.cur :: b.stack⟩

def popB {P : Type} (b : BoardSt P) : BoardSt P :=
  match b.stack with
  | [] => b
  | q :: rest => ⟨q, rest⟩

/-- Stateful `score_move`: push the move, test check, pop, then test
capture on the restored board. -/
def score_moveS {P Mv : Type} (r : Rules P Mv) (b : BoardSt P) (m : Mv) :
    ℤ × BoardSt P :=
  let b1 := pushB r b m
  let chk : ℤ := if r.isCheck b1.cur then 10000 else 0
  let b2 := popB b1
  (chk + (if r.isCapture b2.cur m then 5000 else 0), b2)

/-- Python's `list.sort(key=...)` computes the key of each element
once, in list order; this threads the board through those key
computations. -/
def mapKeysS {P Mv : Type} (r : Rules P Mv) :
    BoardSt P → List Mv → List (Mv × ℤ) × BoardSt P
  | b, [] => ([], b)
  | b, m :: ms =>
    let kb := score_moveS r b m
    let rest := mapKeysS r kb.2 ms
    ((m, kb.1) :: rest.1, rest.2)

/-- Stateful `ordered_moves`: compute all keys (mutating and restoring
the board per move), then stably sort the decorated list and drop the
keys. -/
def ordered_movesS {P Mv : Type} (r : Rules P Mv) (b : BoardSt P) :
    List Mv × BoardSt P :=
  let pairs := mapKeysS r b (r.legalMoves b.cur)
  ((sortKeyed Prod.snd pairs.1).map Prod.fst, pairs.2)

namespace BudgetedS

def budMaxLoopS {P Mv : Type} (r : Rules P Mv)
    (F : BoardSt P → EInt → EInt → Nat → (EInt × Nat) × BoardSt P) (thresh : EInt) :
    BoardSt P → List Mv → EInt → EInt → EInt → Option Mv → Nat →
      ((EInt × Option Mv) × Nat) × BoardSt P
  | b, [], _, _, m, best, n => (((m, best), n), b)
  | b, mv :: rest, alpha, beta, m, best, n =>
    let c := F (pushB r b mv) alpha beta n
    let b2 := popB c.2
    if m < c.1.1 then
      if thresh ≤ c.1.1 then (((c.1.1, some mv), c.1.2), b2)
      else
        let alpha2 := max alpha c.1.1
        if beta ≤ alpha2 then (((c.1.1, some mv), c.1.2), b2)
        else budMaxLoopS r F thresh b2 rest alpha2 beta c.1.1 (some mv) c.1.2
    else
      let alpha2 := max alpha m
      if beta ≤ alpha2 then (((m, best), c.1.2), b2)
      else budMaxLoopS r F thresh b2 rest alpha2 beta m best c.1.2

def budMinLoopS {P Mv : Type} (r : Rules P Mv)
    (F : BoardSt P → EInt → EInt → Nat → (EInt × Nat) × BoardSt P) (thresh : EInt) :
    BoardSt P → List Mv → EInt → EInt → EInt → Option Mv → Nat →
      ((EInt × Option Mv) × Nat) × BoardSt P
  | b, [], _, _, m, best, n => (((m, best), n), b)
  | b, mv :: rest, alpha, beta, m, best, n =>
    let c := F (pushB r b mv) alpha beta n
    let b2 := popB c.2
    if c.1.1 < m then
      if c.1.1 ≤ thresh then (((c.1.1, some mv), c.1.2), b2)
      else
        let beta2 := min beta c.1.1
        if beta2 ≤ alpha then (((c.1.1, some mv), c.1.2), b2)
        else budMinLoopS r F thresh b2 rest alpha beta2 c.1.1 (some mv) c.1.2
    else
      let beta2 := min beta m
      if beta2 ≤ alpha then (((m, best), c.1.2), b2)
      else budMinLoopS r F thresh b2 rest alpha beta2 m best c.1.2

/-- Stateful `minimax_alpha_beta_search` of `part_000`, on the
stack-carrying board. -/
def minimax_alpha_beta_searchS {P Mv : Type} (r : Rules P Mv) (maxN : Nat) :
    Nat → BoardSt P → EInt → EInt → Nat → ((EInt × Option Mv) × Nat) × BoardSt P
  | 0, b, _, _, n => (((toE (evaluate_position r b.cur 0), none), n + 1), b)
  | d + 1, b, alpha, beta, n =>
    if maxN < n + 1 then (((toE (evaluate_position r b.cur (d + 1)), none), n + 1), b)
    else if r.isGameOver b.cur then
      (((toE (evaluate_position r b.cur (d + 1)), none), n + 1), b)
    else if r.turnWhite b.cur then
      let om := ordered_movesS r b
      budMaxLoopS r
        (fun b' a bb nn =>
          let x := minimax_alpha_beta_searchS r maxN d b' a bb nn
          ((x.1.1.1, x.1.2), x.2))
        (toE (MATE_SCORE - ((d : ℤ) + 1))) om.2 om.1 alpha beta ⊥ none (n + 1)
    else
      let om := ordered_movesS r b
      budMinLoopS r
        (fun b' a bb nn =>
          let x := minimax_alpha_beta_searchS r maxN d b' a bb nn
          ((x.1.1.1, x.1.2), x.2))
        (toE (-MATE_SCORE + ((d : ℤ) + 1))) om.2 om.1 alpha beta ⊤ none (n + 1)

end BudgetedS

/- Specification-side definitions used to state properties. -/

/-- Plain fixed-depth minimax value of a position (no pruning), the
reference value both searchers are compared against. -/
def mmE {P Mv : Type} (r : Rules P Mv) : Nat → P → EInt
  | 0, p => toE (evaluate_position r p 0)
  | d + 1, p =>
    if r.isGameOver p then toE (evaluate_position r p (d + 1))
    else if r.turnWhite p then
      ((r.legalMoves p).map (fun mv => mmE r d (r.push p mv))).foldr max ⊥
    else
      ((r.legalMoves p).map (fun mv => mmE r d (r.push p mv))).foldr min ⊤

/-- True when no position reachable from `p` within `d` plies (the
root included) is checkmate. -/
def mateFree {P Mv : Type} (r : Rules P Mv) : Nat → P → Bool
  | 0, p => !r.isCheckmate p
  | d + 1, p =>
    !r.isCheckmate p && (r.legalMoves p).all (fun mv => mateFree r d (r.push p mv))

/-- Apply a list of moves in order. -/
def applyMoves {P Mv : Type} (r : Rules P Mv) (p : P) (l : List Mv) : P :=
  l.foldl r.push p

/-- Checks that each move of the list is legal in the position
obtained by applying all prior moves. -/
def legalSeq {P Mv : Type} [DecidableEq Mv] (r : Rules P Mv) : P → List Mv → Bool
  | _, [] => true
  | p, mv :: rest => decide (mv ∈ r.legalMoves p) && legalSeq r (r.push p mv) rest

/-- The legal moves whose heuristic score is exactly `v`, in the rules
engine's native enumeration order. -/
def scoreBucket {P Mv : Type} (r : Rules P Mv) (p : P) (v : ℤ) : List Mv :=
  (r.legalMoves p).filter (fun mv => score_move r p mv == v)

/- Concrete rules-engine instances used for counterexamples and
witnesses.  Positions and moves are natural numbers and `push` moves
to the position named by the move. -/

/-- Engine A: from position 10 (White; enumeration order moves 1, 2)
and position 11 (White; same moves enumerated 2, 1), move 1 reaches
an immediate checkmate (Black mated after one ply) while move 2
starts a forced three-ply line 2 → 3 → 4 ending in checkmate. -/
def EngA : Rules Nat Nat where
  turnWhite := fun p => p == 10 || p == 11 || p == 3
  isCheckmate := fun p => p == 1 || p == 4
  isStalemate := fun _ => false
  isGameOver := fun p => p == 1 || p == 4
  isCheck := fun _ => false
  isCapture := fun _ _ => false
  legalMoves := fun p =>
    if p == 10 then [1, 2]
    else if p == 11 then [2, 1]
    else if p == 2 then [3]
    else if p == 3 then [4]
    else []
  push := fun _ m => m
  pieceAt := fun _ _ => none

/-- Engine B: mate-free.  From position 20 (White) move 5 is quiet
and reaches a position worth 100 (a white pawn), move 6 gives check
and reaches a position worth 300 (a white knight).  Every move-less
position is game over. -/
def EngB : Rules Nat Nat where
  turnWhite := fun p => p == 20
  isCheckmate := fun _ => false
  isStalemate := fun _ => false
  isGameOver := fun p => p != 20
  isCheck := fun p => p == 6
  isCapture := fun _ _ => false
  legalMoves := fun p => if p == 20 then [5, 6] else []
  push := fun _ m => m
  pieceAt := fun p sq =>
    if p == 5 && sq == 0 then some ⟨.pawn, true⟩
    else if p == 6 && sq == 0 then some ⟨.knight, true⟩
    else none

/-- Engine C: from position 30 (White) the enumeration order is move
31 (starting the forced three-ply mate 31 → 33 → 34) before move 32
(immediate checkmate). -/
def EngC : Rules Nat Nat where
  turnWhite := fun p => p == 30 || p == 33
  isCheckmate := fun p => p == 32 || p == 34
  isStalemate := fun _ => false
  isGameOver := fun p => p == 32 || p == 34
  isCheck := fun _ => false
  isCapture := fun _ _ => false
  legalMoves := fun p =>
    if p == 30 then [31, 32]
    else if p == 31 then [33]
    else if p == 33 then [34]
    else []
  push := fun _ m => m
  pieceAt := fun _ _ => none

/-- Engine D: position 40 is stalemate; position 41 is a drawn
terminal position that is neither checkmate nor stalemate (think of a
king-and-bishop versus king insufficient-material draw: a white
bishop is on the board); position 42 is checkmate with Black to
move. -/
def EngD : Rules Nat Nat where
  turnWhite := fun _ => false
  isCheckmate := fun p => p == 42
  isStalemate := fun p => p == 40
  isGameOver := fun p => p == 40 || p == 41 || p == 42
  isCheck := fun _ => false
  isCapture := fun _ _ => false
  legalMoves := fun _ => []
  push := fun _ m => m
  pieceAt := fun p sq => if p == 41 && sq == 0 then some ⟨.bishop, true⟩ else none

/- Lemmas about the stable descending sort. -/

lemma insertDesc_perm {α : Type} (key : α → ℤ) (x : α) (l : List α) :
    (insertDesc key x l).Perm (x :: l) := by
  induction l with
  | nil => exact List.Perm.refl _
  | cons y ys ih =>
    rw [insertDesc]
    by_cases h : key x < key y
    · rw [if_pos h]
      exact (ih.cons y).trans (List.Perm.swap x y ys)
    · rw [if_neg h]

lemma sortKeyed_perm {α : Type} (key : α → ℤ) (l : List α) :
    (sortKeyed key l).Perm l := by
  induction l with
  | nil => exact List.Perm.refl _
  | cons x xs ih =>
    rw [sortKeyed]
    exact (insertDesc_perm key x (sortKeyed key xs)).trans (ih.cons x)

lemma mem_insertDesc {α : Type} (key : α → ℤ) (x : α) (l : List α) (a : α) :
    a ∈ insertDesc key x l ↔ a = x ∨ a ∈ l := by
  rw [(insertDesc_perm key x l).mem_iff, List.mem_cons]

lemma insertDesc_sorted {α : Type} (key : α → ℤ) (x : α) (l : List α)
    (h : List.Sorted (fun a b => key b ≤ key a) l) :
    List.Sorted (fun a b => key b ≤ key a) (insertDesc key x l) := by
  induction l with
  | nil => simp [insertDesc]
  | cons y ys ih =>
    rw [List.sorted_cons] at h
    rw [insertDesc]
    by_cases hxy : key x < key y
    · rw [if_pos hxy, List.sorted_cons]
      refine ⟨?_, ih h.2⟩
      intro b hb
      rcases (mem_insertDesc key x ys b).1 hb with hb | hb
      · subst hb; exact le_of_lt hxy
      · exact h.1 b hb
    · rw [if_neg hxy, List.sorted_cons]
      refine ⟨?_, List.sorted_cons.2 h⟩
      intro b hb
      rcases List.mem_cons.1 hb with hb | hb
      · subst hb; exact le_of_not_lt hxy
      · exact le_trans (h.1 b hb) (le_of_not_lt hxy)

lemma sortKeyed_sorted {α : Type} (key : α → ℤ) (l : List α) :
    List.Sorted (fun a b => key b ≤ key a) (sortKeyed key l) := by
  induction l with
  | nil => simp [sortKeyed]
  | cons x xs ih => exact insertDesc_sorted key x _ ih

lemma insertDesc_cons_of_not_lt {α : Type} (key : α → ℤ) (x : α) (l : List α)
    (h : ∀ a ∈ l, ¬ key x < key a) : insertDesc key x l = x :: l := by
  cases l with
  | nil => rfl
  | cons y ys => rw [insertDesc, if_neg (h y (List.mem_cons_self y ys))]

lemma insertDesc_append_left {α : Type} (key : α → ℤ) (x : α) (A B : List α)
    (h : ∀ a ∈ A, key x < key a) :
    insertDesc key x (A ++ B) = A ++ insertDesc key x B := by
  induction A with
  | nil => rfl
  | cons a as ih =>
    rw [List.cons_append, insertDesc, if_pos (h a (List.mem_cons_self a as))]
    rw [ih fun b hb => h b (List.mem_cons_of_mem a hb), List.cons_append]

lemma mem_filter_key {α : Type} (key : α → ℤ) (l : List α) (v : ℤ) (a : α)
    (ha : a ∈ l.filter (fun x => key x == v)) : key a = v := by
  have := List.of_mem_filter ha
  exact by simpa using this

/-- A stable descending sort of a list whose keys all lie in the four
heuristic levels is the concatenation of the four level buckets, each
in original order. -/
lemma sortKeyed_buckets {α : Type} (key : α → ℤ) (l : List α)
    (hk : ∀ x ∈ l, key x = 15000 ∨ key x = 10000 ∨ key x = 5000 ∨ key x = 0) :
    sortKeyed key l =
      l.filter (fun x => key x == 15000) ++ l.filter (fun x => key x == 10000) ++
        l.filter (fun x => key x == 5000) ++ l.filter (fun x => key x == 0) := by
  induction l with
  | nil => rfl
  | cons x xs ih =>
    have hx := hk x (List.mem_cons_self x xs)
    have hxs : ∀ y ∈ xs, key y = 15000 ∨ key y = 10000 ∨ key y = 5000 ∨ key y = 0 :=
      fun y hy => hk y (List.mem_cons_of_mem x hy)
    have hmem : ∀ v : ℤ, ∀ a ∈ xs.filter (fun y => key y == v), key a = v :=
      fun v a ha => mem_filter_key key xs v a ha
    rw [sortKeyed, ih hxs]
    rcases hx with hx | hx | hx | hx
    · have hstop : ∀ a ∈ xs.filter (fun y => key y == 15000) ++
          xs.filter (fun y => key y == 10000) ++ xs.filter (fun y => key y == 5000) ++
          xs.filter (fun y => key y == 0), ¬ key x < key a := by
        intro a ha
        simp only [List.mem_append] at ha
        rcases ha with ((h1 | h1) | h1) | h1
        · rw [hmem 15000 a h1, hx]; omega
        · rw [hmem 10000 a h1, hx]; omega
        · rw [hmem 5000 a h1, hx]; omega
        · rw [hmem 0 a h1, hx]; omega
      rw [insertDesc_cons_of_not_lt key x _ hstop]
      simp [List.filter_cons, hx]
    · have hgt : ∀ a ∈ xs.filter (fun y => key y == 15000), key x < key a := by
        intro a ha; rw [hmem 15000 a ha, hx]; omega
      have hstop : ∀ a ∈ xs.filter (fun y => key y == 10000) ++
          xs.filter (fun y => key y == 5000) ++ xs.filter (fun y => key y == 0),
          ¬ key x < key a := by
        intro a ha
        simp only [List.mem_append] at ha
        rcases ha with (h1 | h1) | h1
        · rw [hmem 10000 a h1, hx]; omega
        · rw [hmem 5000 a h1, hx]; omega
        · rw [hmem 0 a h1, hx]; omega
      rw [List.append_assoc, List.append_assoc,
        insertDesc_append_left key x _ _ hgt,
        ← List.append_assoc, insertDesc_cons_of_not_lt key x _ hstop]
      simp [List.filter_cons, hx]
    · have hgt : ∀ a ∈ xs.filter (fun y => key y == 15000) ++
          xs.filter (fun y => key y == 10000), key x < key a := by
        intro a ha
        rcases List.mem_append.1 ha with h1 | h1
        · rw [hmem 15000 a h1, hx]; omega
        · rw [hmem 10000 a h1, hx]; omega
      have hstop : ∀ a ∈ xs.filter (fun y => key y == 5000) ++
          xs.filter (fun y => key y == 0), ¬ key x < key a := by
        intro a ha
        rcases List.mem_append.1 ha with h1 | h1
        · rw [hmem 5000 a h1, hx]; omega
        · rw [hmem 0 a h1, hx]; omega
      rw [List.append_assoc, insertDesc_append_left key x _ _ hgt,
        insertDesc_cons_of_not_lt key x _ hstop]
      simp [List.filter_cons, hx]
    · have hgt : ∀ a ∈ xs.filter (fun y => key y == 15000) ++
          xs.filter (fun y => key y == 10000) ++ xs.filter (fun y => key y == 5000),
          key x < key a := by
        intro a ha
        simp only [List.mem_append] at ha
        rcases ha with (h1 | h1) | h1
        · rw [hmem 15000 a h1, hx]; omega
        · rw [hmem 10000 a h1, hx]; omega
        · rw [hmem 5000 a h1, hx]; omega
      have hstop : ∀ a ∈ xs.filter (fun y => key y == 0), ¬ key x < key a := by
        intro a ha; rw [hmem 0 a ha, hx]; omega
      rw [insertDesc_append_left key x _ _ hgt,
        insertDesc_cons_of_not_lt key x _ hstop]
      simp [List.filter_cons, hx]

/-- Every heuristic score is one of the four levels 15000 (check and
capture), 10000 (check), 5000 (capture), 0 (quiet). -/
lemma score_move_levels {P Mv : Type} (r : Rules P Mv) (p : P) (m : Mv) :
    score_move r p m = 15000 ∨ score_move r p m = 10000 ∨
      score_move r p m = 5000 ∨ score_move r p m = 0 := by
  unfold score_move
  by_cases h1 : r.isCheck (r.push p m) <;> by_cases h2 : r.isCapture p m <;>
    simp [h1, h2]

/-- C4: the move orderer returns exactly the legal moves, sorted in
descending order of the heuristic score (10000 for giving check plus
5000 for a capture, 0 otherwise), and, since the sort is stable,
equal scores keep the rules engine's native enumeration order: the
result is the concatenation of the four score buckets (15000, 10000,
5000, 0), each bucket in enumeration order.  In particular every
check-giving move precedes every quiet move and every capturing
non-check move precedes every quiet non-capturing move. -/
theorem c4_ordered_moves_spec {P Mv : Type} (r : Rules P Mv) (p : P) :
    (ordered_moves r p).Perm (r.legalMoves p) ∧
      List.Sorted (fun a b => score_move r p b ≤ score_move r p a) (ordered_moves r p) ∧
      ordered_moves r p =
        scoreBucket r p 15000 ++ scoreBucket r p 10000 ++
          scoreBucket r p 5000 ++ scoreBucket r p 0 := by
  refine ⟨sortKeyed_perm _ _, sortKeyed_sorted _ _, ?_⟩
  exact sortKeyed_buckets (score_move r p) (r.legalMoves p)
    (fun x _ => score_move_levels r p x)

/- Bounds on the material evaluation. -/

lemma abs_squareValue_le (pc : Option Piece) : |squareValue pc| ≤ 900 := by
  rcases pc with _ | ⟨k, w⟩
  · simp [squareValue]
  · rcases w <;> rcases k <;> simp [squareValue, piece_values]

lemma foldl_material_bound {P Mv : Type} (r : Rules P Mv) (p : P) :
    ∀ (l : List Nat) (s : ℤ),
      |l.foldl (fun s sq => s + squareValue (r.pieceAt p sq)) s| ≤
        |s| + 900 * l.length := by
  intro l
  induction l with
  | nil => intro s; simp
  | cons a t ih =>
    intro s
    rw [List.foldl_cons]
    have h1 := ih (s + squareValue (r.pieceAt p a))
    have h2 : |s + squareValue (r.pieceAt p a)| ≤ |s| + 900 :=
      le_trans (abs_add s _) (by linarith [abs_squareValue_le (r.pieceAt p a)])
    have h3 : (900 : ℤ) * (t.length + 1) = 900 * t.length + 900 := by ring
    simp only [List.length_cons]
    push_cast
    push_cast at h1
    linarith

/-- The material score of any position is bounded by 64 squares times
the largest piece value 900. -/
lemma material_abs_le {P Mv : Type} (r : Rules P Mv) (p : P) :
    |material r p| ≤ 57600 := by
  have h := foldl_material_bound r p (List.range 64) 0
  simpa [material] using h

lemma evaluate_not_mate_bound {P Mv : Type} (r : Rules P Mv) (p : P) (d : Nat)
    (hcm : r.isCheckmate p = false) : |evaluate_position r p d| ≤ 57600 := by
  unfold evaluate_position
  rw [hcm]
  by_cases hs : r.isStalemate p
  · simp [hs]
  · simpa [hs] using material_abs_le r p

/-- C7 (amended): the claimed strict bound fails only at checkmate
with zero remaining depth, where the evaluator returns exactly
`±MATE_SCORE`.  What holds: for depth at most the mate constant the
magnitude is at most `MATE_SCORE`, strictly below it as soon as the
remaining depth is positive or the position is not checkmate, and the
material score of a non-checkmate position never exceeds 57600, far
below the mate constant. -/
theorem c7_amended {P Mv : Type} (r : Rules P Mv) (p : P) (d : Nat)
    (hd : (d : ℤ) ≤ MATE_SCORE) :
    |evaluate_position r p d| ≤ MATE_SCORE ∧
      (0 < d ∨ r.isCheckmate p = false → |evaluate_position r p d| < MATE_SCORE) ∧
      (r.isCheckmate p = false → |evaluate_position r p d| ≤ 57600) := by
  by_cases hcm : r.isCheckmate p
  · have habs : |evaluate_position r p d| = MATE_SCORE - d := by
      unfold evaluate_position
      rw [hcm]
      by_cases ht : r.turnWhite p
      · simp only [ht, if_true, if_pos]
        rw [abs_of_nonpos (by unfold MATE_SCORE at hd ⊢; omega)]
        ring
      · simp only [ht, if_false, Bool.false_eq_true, if_pos]
        rw [abs_of_nonneg (by unfold MATE_SCORE at hd ⊢; omega)]
    refine ⟨by rw [habs]; unfold MATE_SCORE; omega, ?_, ?_⟩
    · intro hor
      rcases hor with hpos | hfalse
      · rw [habs]; unfold MATE_SCORE; omega
      · rw [hcm] at hfalse; exact absurd hfalse (by simp)
    · intro hfalse; rw [hcm] at hfalse; exact absurd hfalse (by simp)
  · have hb := evaluate_not_mate_bound r p d (by simpa using hcm)
    refine ⟨le_trans hb (by unfold MATE_SCORE; omega),
      fun _ => lt_of_le_of_lt hb (by unfold MATE_SCORE; omega), fun _ => hb⟩

/-- C7 witness: a non-checkmate drawn position at depth 5 and the
strict bound when the remaining depth is positive. -/
theorem c7_amended_witness :
    |evaluate_position EngD 41 5| ≤ MATE_SCORE ∧
      |evaluate_position EngD 42 3| < MATE_SCORE ∧
      |evaluate_position EngD 41 5| ≤ 57600 := by
  refine ⟨(c7_amended EngD 41 5 (by decide)).1, ?_, ?_⟩
  · exact (c7_amended EngD 42 3 (by decide)).2.1 (Or.inl (by decide))
  · exact (c7_amended EngD 41 5 (by decide)).2.2 (by decide)

/-- C7 counterexample: at a checkmate position with zero remaining
depth the evaluator returns exactly `MATE_SCORE = 100000`, so the
score magnitude is not strictly less than the mate constant. -/
theorem c7_cex :
    EngD.isCheckmate 42 = true ∧ evaluate_position EngD 42 0 = 100000 ∧
      ¬ |evaluate_position EngD 42 0| < MATE_SCORE := by
  refine ⟨by decide, by decide, ?_⟩
  intro h
  rw [show evaluate_position EngD 42 0 = 100000 from by decide] at h
  exact absurd h (by decide)

/-- C5 (amended): the evaluator returns 0 for stalemate (checkmate is
tested first), but any other drawn terminal state the rules engine
recognizes falls through to the material sum, which need not be 0:
drawn-terminal detection beyond stalemate plays no role in
`evaluate_position`. -/
theorem c5_amended {P Mv : Type} (r : Rules P Mv) (p : P) (d : Nat)
    (hcm : r.isCheckmate p = false) :
    (r.isStalemate p = true → evaluate_position r p d = 0) ∧
      (r.isStalemate p = false → evaluate_position r p d = material r p) := by
  constructor
  · intro hs; simp [evaluate_position, hcm, hs]
  · intro hs; simp [evaluate_position, hcm, hs]

/-- C5 witness: a stalemate scores 0 and a non-terminal-looking
evaluation returns the material sum. -/
theorem c5_amended_witness :
    evaluate_position EngD 40 7 = 0 ∧ evaluate_position EngB 5 0 = material EngB 5 := by
  exact ⟨(c5_amended EngD 40 7 (by decide)).1 (by decide),
    (c5_amended EngB 5 0 (by decide)).2 (by decide)⟩

/-- C5 counterexample: position 41 of engine D is a drawn terminal
position (game over, neither checkmate nor stalemate — e.g. an
insufficient-material draw with a bishop on the board), yet the
evaluator returns its material sum 300, not 0. -/
theorem c5_cex :
    EngD.isGameOver 41 = true ∧ EngD.isCheckmate 41 = false ∧
      EngD.isStalemate 41 = false ∧ evaluate_position EngD 41 5 = 300 ∧
      (300 : ℤ) ≠ 0 := by
  refine ⟨by decide, by decide, by decide, by decide, by decide⟩

/-- C1 (amended): on a checkmate position the evaluator returns a
score whose sign favors the side that delivered mate and whose
magnitude is exactly `MATE_SCORE - depthRemaining`; consequently a
mate leaf with SMALLER remaining depth — i.e. reached after MORE
plies from the node under comparison — receives the strictly larger
magnitude, so when the searcher compares sibling lines it favors the
longest forced mate inside the horizon, not the shortest. -/
theorem c1_amended {P Mv : Type} (r : Rules P Mv) (p : P) (d : Nat)
    (hcm : r.isCheckmate p = true) (hd : (d : ℤ) < MATE_SCORE) :
    (r.turnWhite p = true →
      evaluate_position r p d = -(MATE_SCORE - d) ∧ evaluate_position r p d < 0) ∧
      (r.turnWhite p = false →
        evaluate_position r p d = MATE_SCORE - d ∧ 0 < evaluate_position r p d) ∧
      |evaluate_position r p d| = MATE_SCORE - d ∧
      (∀ (p' : P) (d' : Nat), r.isCheckmate p' = true → d' < d →
        |evaluate_position r p d| < |evaluate_position r p' d'|) := by
  have hval : ∀ (q : P) (e : Nat), r.isCheckmate q = true → (e : ℤ) < MATE_SCORE →
      |evaluate_position r q e| = MATE_SCORE - e := by
    intro q e hq he
    unfold evaluate_position
    rw [hq]
    by_cases ht : r.turnWhite q
    · simp only [ht, if_true, if_pos]
      rw [abs_of_nonpos (by unfold MATE_SCORE at he ⊢; omega)]
      ring
    · simp only [ht, if_false, Bool.false_eq_true, if_pos]
      rw [abs_of_nonneg (by unfold MATE_SCORE at he ⊢; omega)]
  refine ⟨?_, ?_, hval p d hcm hd, ?_⟩
  · intro ht
    have : evaluate_position r p d = -(MATE_SCORE - d) := by
      unfold evaluate_position; rw [hcm, ht]; simp; ring
    exact ⟨this, by rw [this]; unfold MATE_SCORE at hd ⊢; omega⟩
  · intro ht
    have : evaluate_position r p d = MATE_SCORE - d := by
      unfold evaluate_position; rw [hcm, ht]; simp
    exact ⟨this, by rw [this]; unfold MATE_SCORE at hd ⊢; omega⟩
  · intro p' d' hcm' hd'
    rw [hval p d hcm hd, hval p' d' hcm' (by omega)]
    omega

/-- C1 witness: magnitudes at a concrete checkmate position, and the
deeper-mate-scores-higher comparison at remaining depths 3 and 1. -/
theorem c1_amended_witness :
    evaluate_position EngD 42 3 = MATE_SCORE - 3 ∧
      |evaluate_position EngD 42 3| < |evaluate_position EngD 42 1| := by
  refine ⟨((c1_amended EngD 42 3 (by decide) (by decide)).2.1 (by decide)).1, ?_⟩
  exact (c1_amended EngD 42 3 (by decide) (by decide)).2.2.2 42 1 (by decide) (by decide)

/-- C1 counterexample: in engine A, from the root the sibling line
through move 1 reaches forced checkmate in one ply and scores 99998,
while the sibling line through move 2 needs three plies and scores
100000 — the line with FEWER plies to mate gets the strictly WORSE
score, and the searcher at the root (enumeration order move 2 first)
returns the three-ply mate. -/
theorem c1_cex :
    EngA.isCheckmate (EngA.push 11 1) = true ∧
      (Budgeted.minimax_alpha_beta_search EngA 1000 2 1 ⊥ ⊤ 0).1.1 = toE 99998 ∧
      (Budgeted.minimax_alpha_beta_search EngA 1000 2 2 ⊥ ⊤ 0).1.1 = toE 100000 ∧
      toE 99998 < toE 100000 ∧
      (Budgeted.minimax_alpha_beta_search EngA 1000 3 11 ⊥ ⊤ 0).1 =
        (toE 100000, some 2) := by
  refine ⟨by decide, by decide, by decide, by decide, by decide⟩

/- Node-counter monotonicity. -/

lemma budMaxLoop_mono {P Mv : Type} (psh : P → Mv → P)
    (F : P → EInt → EInt → Nat → EInt × Nat) (p : P) (thresh : EInt)
    (hF : ∀ q a b nn, nn ≤ (F q a b nn).2) :
    ∀ (l : List Mv) (alpha beta m : EInt) (best : Option Mv) (n : Nat),
      n ≤ (Budgeted.budMaxLoop psh F p thresh l alpha beta m best n).2 := by
  intro l
  induction l with
  | nil => intro alpha beta m best n; simp [Budgeted.budMaxLoop]
  | cons mv rest ih =>
    intro alpha beta m best n
    simp only [Budgeted.budMaxLoop]
    have h0 := hF (psh p mv) alpha beta n
    split_ifs <;> first
      | exact h0
      | exact le_trans h0 (ih _ _ _ _ _)

lemma budMinLoop_mono {P Mv : Type} (psh : P → Mv → P)
    (F : P → EInt → EInt → Nat → EInt × Nat) (p : P) (thresh : EInt)
    (hF : ∀ q a b nn, nn ≤ (F q a b nn).2) :
    ∀ (l : List Mv) (alpha beta m : EInt) (best : Option Mv) (n : Nat),
      n ≤ (Budgeted.budMinLoop psh F p thresh l alpha beta m best n).2 := by
  intro l
  induction l with
  | nil => intro alpha beta m best n; simp [Budgeted.budMinLoop]
  | cons mv rest ih =>
    intro alpha beta m best n
    simp only [Budgeted.budMinLoop]
    have h0 := hF (psh p mv) alpha beta n
    split_ifs <;> first
      | exact h0
      | exact le_trans h0 (ih _ _ _ _ _)

/-- Every invocation of the budgeted search increments the node
counter at least once. -/
lemma search_nodes_mono {P Mv : Type} (r : Rules P Mv) (maxN : Nat) :
    ∀ (d : Nat) (p : P) (alpha beta : EInt) (n : Nat),
      n + 1 ≤ (Budgeted.minimax_alpha_beta_search r maxN d p alpha beta n).2 := by
  intro d
  induction d with
  | zero => intro p alpha beta n; simp [Budgeted.minimax_alpha_beta_search]
  | succ d ih =>
    intro p alpha beta n
    simp only [Budgeted.minimax_alpha_beta_search]
    have hchild : ∀ (q : P) (a b : EInt) (nn : Nat),
        nn ≤ ((fun q a b nn =>
          ((Budgeted.minimax_alpha_beta_search r maxN d q a b nn).1.1,
            (Budgeted.minimax_alpha_beta_search r maxN d q a b nn).2)) q a b nn).2 := by
      intro q a b nn
      exact le_trans (Nat.le_succ nn) (ih q a b nn)
    split_ifs
    · exact le_refl _
    · exact le_refl _
    · exact budMaxLoop_mono _ _ _ _ hchild _ _ _ _ _ _
    · exact budMinLoop_mono _ _ _ _ hchild _ _ _ _ _ _

/-- C3: the budgeted search increments the session node counter on
every invocation (first conjunct), returns `(evaluate(position,
depth), absent move)` immediately whenever the incremented counter
exceeds the budget (second conjunct), and with the budget set to 0 a
search from a fresh session on any non-terminal position with
non-zero depth returns the evaluator-only score and an absent move
after visiting exactly one node (third conjunct). -/
theorem c3_node_budget {P Mv : Type} (r : Rules P Mv) (maxN d : Nat) (p : P)
    (alpha beta : EInt) (n : Nat) :
    n + 1 ≤ (Budgeted.minimax_alpha_beta_search r maxN d p alpha beta n).2 ∧
      (maxN < n + 1 →
        Budgeted.minimax_alpha_beta_search r maxN d p alpha beta n =
          ((toE (evaluate_position r p d), none), n + 1)) ∧
      (d ≠ 0 → r.isGameOver p = false →
        Budgeted.minimax_alpha_beta_search r 0 d p alpha beta 0 =
          ((toE (evaluate_position r p d), none), 1)) := by
  refine ⟨search_nodes_mono r maxN d p alpha beta n, ?_, ?_⟩
  · intro hbud
    cases d with
    | zero => simp [Budgeted.minimax_alpha_beta_search]
    | succ d => simp [Budgeted.minimax_alpha_beta_search, if_pos hbud]
  · intro hd _
    cases d with
    | zero => exact absurd rfl hd
    | succ d => simp [Budgeted.minimax_alpha_beta_search]

/-- C3 witness: engine B at position 20 (non-terminal), depth 1,
budget 0, fresh counter. -/
theorem c3_node_budget_witness :
    0 + 1 ≤ (Budgeted.minimax_alpha_beta_search EngB 0 1 20 ⊥ ⊤ 0).2 ∧
      Budgeted.minimax_alpha_beta_search EngB 0 1 20 ⊥ ⊤ 0 =
        ((toE (evaluate_position EngB 20 1), none), 1) := by
  refine ⟨(c3_node_budget EngB 0 1 20 ⊥ ⊤ 0).1, ?_⟩
  exact (c3_node_budget EngB 0 1 20 ⊥ ⊤ 0).2.2 (by decide) (by decide)

/-- C6 (amended): the mechanics of the early mate cutoff hold — as
soon as a move improves the running best to a value at or beyond the
cutoff threshold (`MATE_SCORE - depth` for the maximizer,
`-MATE_SCORE + depth` for the minimizer), the loop returns that score
and move immediately, and the remaining sibling moves are never
examined (the result does not depend on them).  The claim's further
assertion that this early return never changes the node's value is
dropped: it is false, because a deeper mate in a later sibling can
score strictly higher under this evaluator. -/
theorem c6_amended {P Mv : Type} (psh : P → Mv → P)
    (F : P → EInt → EInt → Nat → EInt × Nat) (p : P) (thresh : EInt) (mv : Mv)
    (alpha beta m : EInt) (best : Option Mv) (n : Nat) :
    (∀ rest : List Mv, m < (F (psh p mv) alpha beta n).1 →
      thresh ≤ (F (psh p mv) alpha beta n).1 →
      Budgeted.budMaxLoop psh F p thresh (mv :: rest) alpha beta m best n =
        (((F (psh p mv) alpha beta n).1, some mv), (F (psh p mv) alpha beta n).2)) ∧
      (∀ rest : List Mv, (F (psh p mv) alpha beta n).1 < m →
        (F (psh p mv) alpha beta n).1 ≤ thresh →
        Budgeted.budMinLoop psh F p thresh (mv :: rest) alpha beta m best n =
          (((F (psh p mv) alpha beta n).1, some mv), (F (psh p mv) alpha beta n).2)) := by
  constructor
  · intro rest himp hth
    simp only [Budgeted.budMaxLoop, if_pos himp, if_pos hth]
  · intro rest himp hth
    simp only [Budgeted.budMinLoop, if_pos himp, if_pos hth]

/-- C6 witness: a concrete child evaluation that reaches the
threshold triggers the immediate return in both loops, with two
unexamined sibling moves present. -/
theorem c6_amended_witness :
    Budgeted.budMaxLoop (fun (p : Nat) (_ : Nat) => p)
        (fun _ _ _ nn => (toE 99999, nn + 1)) 0 (toE 99999) [7, 8, 9] ⊥ ⊤ ⊥ none 0 =
      ((toE 99999, some 7), 1) ∧
      Budgeted.budMinLoop (fun (p : Nat) (_ : Nat) => p)
          (fun _ _ _ nn => (toE (-99999), nn + 1)) 0 (toE (-99999)) [7, 8, 9] ⊥ ⊤ ⊤ none 0 =
        ((toE (-99999), some 7), 1) := by
  constructor
  · exact (c6_amended (fun (p : Nat) (_ : Nat) => p) (fun _ _ _ nn => (toE 99999, nn + 1))
      0 (toE 99999) 7 ⊥ ⊤ ⊥ none 0).1 [8, 9] (by decide) (by decide)
  · exact (c6_amended (fun (p : Nat) (_ : Nat) => p) (fun _ _ _ nn => (toE (-99999), nn + 1))
      0 (toE (-99999)) 7 ⊥ ⊤ ⊤ none 0).2 [8, 9] (by decide) (by decide)

/-- C6 counterexample: in engine A from the root (enumeration order:
immediate mate first), the early mate cutoff returns 99998 after the
first move, but the value of the node over all siblings — the plain
minimax value, also returned by the cutoff-free searcher — is 100000,
so the early return does change the node's value. -/
theorem c6_cex :
    (Budgeted.minimax_alpha_beta_search EngA 1000 3 10 ⊥ ⊤ 0).1 = (toE 99998, some 1) ∧
      mmE EngA 3 10 = toE 100000 ∧
      (Plain.minimax_alpha_beta_search EngA 3 10 ⊥ ⊤).1 = toE 100000 ∧
      toE 99998 ≠ toE 100000 := by
  refine ⟨by decide, by decide, by decide, by decide⟩

/- Driver lemmas. -/

lemma mateSeqGo_succ_none {P Mv : Type} (r : Rules P Mv) (maxN k : Nat) (p : P)
    (n : Nat)
    (hres : (Budgeted.minimax_alpha_beta_search r maxN (k + 1) p ⊥ ⊤ n).1.2 = none) :
    Budgeted.mateSeqGo r maxN (k + 1) p n = [] := by
  simp [Budgeted.mateSeqGo, hres]

lemma mateSeqGo_succ_mate {P Mv : Type} (r : Rules P Mv) (maxN k : Nat) (p : P)
    (n : Nat) (mv : Mv)
    (hres : (Budgeted.minimax_alpha_beta_search r maxN (k + 1) p ⊥ ⊤ n).1.2 = some mv)
    (hm : r.isCheckmate (r.push p mv) = true) :
    Budgeted.mateSeqGo r maxN (k + 1) p n = [mv] := by
  simp [Budgeted.mateSeqGo, hres, hm]

lemma mateSeqGo_succ_cont {P Mv : Type} (r : Rules P Mv) (maxN k : Nat) (p : P)
    (n : Nat) (mv : Mv)
    (hres : (Budgeted.minimax_alpha_beta_search r maxN (k + 1) p ⊥ ⊤ n).1.2 = some mv)
    (hm : r.isCheckmate (r.push p mv) = false) :
    Budgeted.mateSeqGo r maxN (k + 1) p n =
      mv :: Budgeted.mateSeqGo r maxN k (r.push p mv)
        (Budgeted.minimax_alpha_beta_search r maxN (k + 1) p ⊥ ⊤ n).2 := by
  simp [Budgeted.mateSeqGo, hres, hm]

lemma mateSeqGo_no_early_mate {P Mv : Type} (r : Rules P Mv) (maxN : Nat) :
    ∀ (k : Nat) (p : P) (n i : Nat),
      i + 1 < (Budgeted.mateSeqGo r maxN k p n).length →
      r.isCheckmate (applyMoves r p ((Budgeted.mateSeqGo r maxN k p n).take (i + 1))) =
        false := by
  intro k
  induction k with
  | zero => intro p n i h; simp [Budgeted.mateSeqGo] at h
  | succ k ih =>
    intro p n i h
    rcases hres : (Budgeted.minimax_alpha_beta_search r maxN (k + 1) p ⊥ ⊤ n).1.2 with
      _ | mv
    · rw [mateSeqGo_succ_none r maxN k p n hres] at h
      simp at h
    · by_cases hm : r.isCheckmate (r.push p mv)
      · rw [mateSeqGo_succ_mate r maxN k p n mv hres hm] at h
        simp at h
      · have hmf : r.isCheckmate (r.push p mv) = false := by simpa using hm
        rw [mateSeqGo_succ_cont r maxN k p n mv hres hmf] at h ⊢
        cases i with
        | zero => simpa [applyMoves] using hmf
        | succ j =>
          simp only [List.length_cons] at h
          have hj : j + 1 < (Budgeted.mateSeqGo r maxN k (r.push p mv)
              (Budgeted.minimax_alpha_beta_search r maxN (k + 1) p ⊥ ⊤ n).2).length := by
            omega
          have := ih (r.push p mv)
            (Budgeted.minimax_alpha_beta_search r maxN (k + 1) p ⊥ ⊤ n).2 j hj
          simpa [List.take_succ_cons, applyMoves] using this

/-- C8 (amended): the driver's early termination on checkmate means
the returned sequence never continues past a checkmate: no proper
nonempty prefix of the output leaves the working position in
checkmate.  The claim's cross-budget idempotence is dropped: a larger
ply budget can return a different (longer) mating sequence, because
the evaluator scores deeper mates higher. -/
theorem c8_amended {P Mv : Type} (r : Rules P Mv) (maxN : Nat) (p : P) (k : Nat) :
    ∀ i : Nat, i + 1 < (Budgeted.get_mate_sequence r maxN p k).length →
      r.isCheckmate
        (applyMoves r p ((Budgeted.get_mate_sequence r maxN p k).take (i + 1))) =
        false :=
  fun i h => mateSeqGo_no_early_mate r maxN k p 0 i h

/-- C8 witness: in engine C with budget 3 the returned sequence has
length 3 and its one-move prefix does not end in checkmate. -/
theorem c8_amended_witness :
    EngC.isCheckmate
      (applyMoves EngC 30 ((Budgeted.get_mate_sequence EngC 1000 30 3).take 1)) =
      false :=
  c8_amended EngC 1000 30 3 0 (by decide)

/-- C8 counterexample: with budget 1 the driver returns the
single-move sequence through move 32 whose final move delivers
checkmate, yet with the larger budget 3 it returns a different
sequence (the three-ply mate 31, 33, 34), violating cross-budget
idempotence. -/
theorem c8_cex :
    Budgeted.get_mate_sequence EngC 1000 30 1 = [32] ∧
      EngC.isCheckmate (applyMoves EngC 30 [32]) = true ∧
      (1 : Nat) < 3 ∧
      Budgeted.get_mate_sequence EngC 1000 30 3 ≠ [32] := by
  refine ⟨by decide, by decide, by decide, by decide⟩

/- Provenance of the best move returned by the budgeted search. -/

lemma budMaxLoop_move_mem {P Mv : Type} (psh : P → Mv → P)
    (F : P → EInt → EInt → Nat → EInt × Nat) (p : P) (thresh : EInt) :
    ∀ (l : List Mv) (alpha beta m : EInt) (best : Option Mv) (n : Nat),
      (Budgeted.budMaxLoop psh F p thresh l alpha beta m best n).1.2 = best ∨
        ∃ mv ∈ l, (Budgeted.budMaxLoop psh F p thresh l alpha beta m best n).1.2 =
          some mv := by
  intro l
  induction l with
  | nil => intro alpha beta m best n; left; simp [Budgeted.budMaxLoop]
  | cons mv rest ih =>
    intro alpha beta m best n
    simp only [Budgeted.budMaxLoop]
    split_ifs with h1 h2 h3 h4
    · right; exact ⟨mv, List.mem_cons_self mv rest, rfl⟩
    · right; exact ⟨mv, List.mem_cons_self mv rest, rfl⟩
    · rcases ih (max alpha (F (psh p mv) alpha beta n).1) beta
          (F (psh p mv) alpha beta n).1 (some mv) (F (psh p mv) alpha beta n).2 with
        h | ⟨mv2, hmem, heq⟩
      · right; exact ⟨mv, List.mem_cons_self mv rest, h⟩
      · right; exact ⟨mv2, List.mem_cons_of_mem mv hmem, heq⟩
    · left; rfl
    · rcases ih (max alpha m) beta m best (F (psh p mv) alpha beta n).2 with
        h | ⟨mv2, hmem, heq⟩
      · left; exact h
      · right; exact ⟨mv2, List.mem_cons_of_mem mv hmem, heq⟩

lemma budMinLoop_move_mem {P Mv : Type} (psh : P → Mv → P)
    (F : P → EInt → EInt → Nat → EInt × Nat) (p : P) (thresh : EInt) :
    ∀ (l : List Mv) (alpha beta m : EInt) (best : Option Mv) (n : Nat),
      (Budgeted.budMinLoop psh F p thresh l alpha beta m best n).1.2 = best ∨
        ∃ mv ∈ l, (Budgeted.budMinLoop psh F p thresh l alpha beta m best n).1.2 =
          some mv := by
  intro l
  induction l with
  | nil => intro alpha beta m best n; left; simp [Budgeted.budMinLoop]
  | cons mv rest ih =>
    intro alpha beta m best n
    simp only [Budgeted.budMinLoop]
    split_ifs with h1 h2 h3 h4
    · right; exact ⟨mv, List.mem_cons_self mv rest, rfl⟩
    · right; exact ⟨mv, List.mem_cons_self mv rest, rfl⟩
    · rcases ih alpha (min beta (F (psh p mv) alpha beta n).1)
          (F (psh p mv) alpha beta n).1 (some mv) (F (psh p mv) alpha beta n).2 with
        h | ⟨mv2, hmem, heq⟩
      · right; exact ⟨mv, List.mem_cons_self mv rest, h⟩
      · right; exact ⟨mv2, List.mem_cons_of_mem mv hmem, heq⟩
    · left; rfl
    · rcases ih alpha (min beta m) m best (F (psh p mv) alpha beta n).2 with
        h | ⟨mv2, hmem, heq⟩
      · left; exact h
      · right; exact ⟨mv2, List.mem_cons_of_mem mv hmem, heq⟩

/-- Any move returned by the budgeted search is one of the legal
moves of the searched position. -/
lemma search_move_legal {P Mv : Type} (r : Rules P Mv) (maxN : Nat) :
    ∀ (d : Nat) (p : P) (alpha beta : EInt) (n : Nat) (mv : Mv),
      (Budgeted.minimax_alpha_beta_search r maxN d p alpha beta n).1.2 = some mv →
      mv ∈ r.legalMoves p := by
  intro d p alpha beta n mv h
  cases d with
  | zero => simp [Budgeted.minimax_alpha_beta_search] at h
  | succ d =>
    simp only [Budgeted.minimax_alpha_beta_search] at h
    split_ifs at h with h1 h2 h3
    · rcases budMaxLoop_move_mem r.push
          (fun q a b nn =>
            ((Budgeted.minimax_alpha_beta_search r maxN d q a b nn).1.1,
              (Budgeted.minimax_alpha_beta_search r maxN d q a b nn).2))
          p (toE (MATE_SCORE - ((d : ℤ) + 1))) (ordered_moves r p) alpha beta ⊥ none
          (n + 1) with h4 | ⟨mv2, hmem, heq⟩
      · rw [h4] at h; simp at h
      · rw [heq] at h
        cases Option.some.inj h
        exact ((sortKeyed_perm (score_move r p) (r.legalMoves p)).mem_iff).1 hmem
    · rcases budMinLoop_move_mem r.push
          (fun q a b nn =>
            ((Budgeted.minimax_alpha_beta_search r maxN d q a b nn).1.1,
              (Budgeted.minimax_alpha_beta_search r maxN d q a b nn).2))
          p (toE (-MATE_SCORE + ((d : ℤ) + 1))) (ordered_moves r p) alpha beta ⊤ none
          (n + 1) with h4 | ⟨mv2, hmem, heq⟩
      · rw [h4] at h; simp at h
      · rw [heq] at h
        cases Option.some.inj h
        exact ((sortKeyed_perm (score_move r p) (r.legalMoves p)).mem_iff).1 hmem

lemma mateSeqGo_legal {P Mv : Type} [DecidableEq Mv] (r : Rules P Mv) (maxN : Nat) :
    ∀ (k : Nat) (p : P) (n : Nat),
      legalSeq r p (Budgeted.mateSeqGo r maxN k p n) = true := by
  intro k
  induction k with
  | zero => intro p n; rfl
  | succ k ih =>
    intro p n
    rcases hres : (Budgeted.minimax_alpha_beta_search r maxN (k + 1) p ⊥ ⊤ n).1.2 with
      _ | mv
    · rw [mateSeqGo_succ_none r maxN k p n hres]; rfl
    · have hleg : mv ∈ r.legalMoves p := search_move_legal r maxN (k + 1) p ⊥ ⊤ n mv hres
      by_cases hm : r.isCheckmate (r.push p mv)
      · rw [mateSeqGo_succ_mate r maxN k p n mv hres hm]
        simp [legalSeq, hleg]
      · rw [mateSeqGo_succ_cont r maxN k p n mv hres (by simpa using hm)]
        simp [legalSeq, hleg, ih]

/-- C9: every sequence returned by the mate-sequence driver consists
of moves each legal in the position obtained by applying all prior
moves of the sequence to the starting position. -/
theorem c9_sequence_legal {P Mv : Type} [DecidableEq Mv] (r : Rules P Mv)
    (maxN : Nat) (p : P) (k : Nat) :
    legalSeq r p (Budgeted.get_mate_sequence r maxN p k) = true :=
  mateSeqGo_legal r maxN k p 0

/- Frame property: the stateful embedding returns exactly the board
it was given, and computes the same result as the pure embedding. -/

lemma popB_pushB {P Mv : Type} (r : Rules P Mv) (b : BoardSt P) (m : Mv) :
    popB (pushB r b m) = b := by
  cases b; rfl

lemma score_moveS_eq {P Mv : Type} (r : Rules P Mv) (b : BoardSt P) (m : Mv) :
    score_moveS r b m = (score_move r b.cur m, b) := by
  cases b with
  | mk cur stack => simp [score_moveS, score_move, pushB, popB]

lemma mapKeysS_eq {P Mv : Type} (r : Rules P Mv) :
    ∀ (ms : List Mv) (b : BoardSt P),
      mapKeysS r b ms = (ms.map (fun m => (m, score_move r b.cur m)), b) := by
  intro ms
  induction ms with
  | nil => intro b; rfl
  | cons m ms ih =>
    intro b
    simp only [mapKeysS, score_moveS_eq, ih, List.map_cons]

lemma insertDesc_map_pair {α : Type} (key : α → ℤ) (x : α) (l : List α) :
    insertDesc Prod.snd (x, key x) (l.map (fun m => (m, key m))) =
      (insertDesc key x l).map (fun m => (m, key m)) := by
  induction l with
  | nil => rfl
  | cons y ys ih =>
    simp only [List.map_cons, insertDesc]
    by_cases h : key x < key y
    · simp only [if_pos h, ih, List.map_cons]
    · simp only [if_neg h, List.map_cons]

lemma sortKeyed_map_pair {α : Type} (key : α → ℤ) (l : List α) :
    sortKeyed Prod.snd (l.map (fun m => (m, key m))) =
      (sortKeyed key l).map (fun m => (m, key m)) := by
  induction l with
  | nil => rfl
  | cons x xs ih => simp only [List.map_cons, sortKeyed, ih, insertDesc_map_pair]

lemma pushB_cur {P Mv : Type} (r : Rules P Mv) (b : BoardSt P) (m : Mv) :
    (pushB r b m).cur = r.push b.cur m := rfl

lemma ordered_movesS_eq {P Mv : Type} (r : Rules P Mv) (b : BoardSt P) :
    ordered_movesS r b = (ordered_moves r b.cur, b) := by
  simp only [ordered_movesS, mapKeysS_eq]
  rw [sortKeyed_map_pair]
  simp [ordered_moves, List.map_map, Function.comp_def]

lemma budMaxLoopS_eq {P Mv : Type} (r : Rules P Mv)
    (F : P → EInt → EInt → Nat → EInt × Nat)
    (Fs : BoardSt P → EInt → EInt → Nat → (EInt × Nat) × BoardSt P)
    (hFS : ∀ (b : BoardSt P) (a bb : EInt) (nn : Nat), Fs b a bb nn = (F b.cur a bb nn, b))
    (thresh : EInt) :
    ∀ (l : List Mv) (b : BoardSt P) (alpha beta m : EInt) (best : Option Mv) (n : Nat),
      BudgetedS.budMaxLoopS r Fs thresh b l alpha beta m best n =
        (Budgeted.budMaxLoop r.push F b.cur thresh l alpha beta m best n, b) := by
  intro l
  induction l with
  | nil =>
    intro b alpha beta m best n
    simp [BudgetedS.budMaxLoopS, Budgeted.budMaxLoop]
  | cons mv rest ih =>
    intro b alpha beta m best n
    simp only [BudgetedS.budMaxLoopS, Budgeted.budMaxLoop, hFS, pushB_cur, popB_pushB]
    split_ifs <;> simp [ih]

lemma budMinLoopS_eq {P Mv : Type} (r : Rules P Mv)
    (F : P → EInt → EInt → Nat → EInt × Nat)
    (Fs : BoardSt P → EInt → EInt → Nat → (EInt × Nat) × BoardSt P)
    (hFS : ∀ (b : BoardSt P) (a bb : EInt) (nn : Nat), Fs b a bb nn = (F b.cur a bb nn, b))
    (thresh : EInt) :
    ∀ (l : List Mv) (b : BoardSt P) (alpha beta m : EInt) (best : Option Mv) (n : Nat),
      BudgetedS.budMinLoopS r Fs thresh b l alpha beta m best n =
        (Budgeted.budMinLoop r.push F b.cur thresh l alpha beta m best n, b) := by
  intro l
  induction l with
  | nil =>
    intro b alpha beta m best n
    simp [BudgetedS.budMinLoopS, Budgeted.budMinLoop]
  | cons mv rest ih =>
    intro b alpha beta m best n
    simp only [BudgetedS.budMinLoopS, Budgeted.budMinLoop, hFS, pushB_cur, popB_pushB]
    split_ifs <;> simp [ih]

/-- The stateful searcher equals the pure searcher on the current
position, and returns its input board unchanged. -/
lemma searchS_eq {P Mv : Type} (r : Rules P Mv) (maxN : Nat) :
    ∀ (d : Nat) (b : BoardSt P) (alpha beta : EInt) (n : Nat),
      BudgetedS.minimax_alpha_beta_searchS r maxN d b alpha beta n =
        (Budgeted.minimax_alpha_beta_search r maxN d b.cur alpha beta n, b) := by
  intro d
  induction d with
  | zero =>
    intro b alpha beta n
    rfl
  | succ d ih =>
    intro b alpha beta n
    simp only [BudgetedS.minimax_alpha_beta_searchS, Budgeted.minimax_alpha_beta_search,
      ordered_movesS_eq]
    have hFS : ∀ (b' : BoardSt P) (a bb : EInt) (nn : Nat),
        (((BudgetedS.minimax_alpha_beta_searchS r maxN d b' a bb nn).1.1.1,
            (BudgetedS.minimax_alpha_beta_searchS r maxN d b' a bb nn).1.2),
          (BudgetedS.minimax_alpha_beta_searchS r maxN d b' a bb nn).2) =
          (((Budgeted.minimax_alpha_beta_search r maxN d b'.cur a bb nn).1.1,
            (Budgeted.minimax_alpha_beta_search r maxN d b'.cur a bb nn).2), b') := by
      intro b' a bb nn
      simp only [ih]
    have hmax := budMaxLoopS_eq r
      (fun q a bb nn =>
        ((Budgeted.minimax_alpha_beta_search r maxN d q a bb nn).1.1,
          (Budgeted.minimax_alpha_beta_search r maxN d q a bb nn).2))
      (fun b' a bb nn =>
        (((BudgetedS.minimax_alpha_beta_searchS r maxN d b' a bb nn).1.1.1,
            (BudgetedS.minimax_alpha_beta_searchS r maxN d b' a bb nn).1.2),
          (BudgetedS.minimax_alpha_beta_searchS r maxN d b' a bb nn).2))
      hFS
    have hmin := budMinLoopS_eq r
      (fun q a bb nn =>
        ((Budgeted.minimax_alpha_beta_search r maxN d q a bb nn).1.1,
          (Budgeted.minimax_alpha_beta_search r maxN d q a bb nn).2))
      (fun b' a bb nn =>
        (((BudgetedS.minimax_alpha_beta_searchS r maxN d b' a bb nn).1.1.1,
            (BudgetedS.minimax_alpha_beta_searchS r maxN d b' a bb nn).1.2),
          (BudgetedS.minimax_alpha_beta_searchS r maxN d b' a bb nn).2))
      hFS
    split_ifs <;> simp only [hmax, hmin]

/-- C2: for every position, depth, alpha, beta, node counter and move
stack, the budgeted searcher returns the board (current position and
undo stack) exactly as it received it, through every exit path —
terminal return, node-budget return, early mate cutoff and alpha-beta
break — and likewise the move orderer leaves its input board
unchanged (every speculative push is undone). -/
theorem c2_frame {P Mv : Type} (r : Rules P Mv) (maxN d : Nat) (b : BoardSt P)
    (alpha beta : EInt) (n : Nat) :
    (BudgetedS.minimax_alpha_beta_searchS r maxN d b alpha beta n).2 = b ∧
      (ordered_movesS r b).2 = b := by
  constructor
  · rw [searchS_eq]
  · rw [ordered_movesS_eq]

/- Extended-integer helpers. -/

lemma toE_le_toE {a b : ℤ} : toE a ≤ toE b ↔ a ≤ b := by
  simp [toE]

lemma toE_lt_toE {a b : ℤ} : toE a < toE b ↔ a < b := by
  simp [toE]

lemma bot_lt_toE (a : ℤ) : (⊥ : EInt) < toE a := WithBot.bot_lt_coe _

lemma toE_lt_top (a : ℤ) : toE a < (⊤ : EInt) := by
  have h : ((a : WithTop ℤ) : WithBot (WithTop ℤ)) < ((⊤ : WithTop ℤ) : WithBot (WithTop ℤ)) :=
    WithBot.coe_lt_coe.2 (WithTop.coe_lt_top a)
  simpa [toE] using h

lemma ebot_lt_etop : (⊥ : EInt) < ⊤ :=
  lt_trans (bot_lt_toE 0) (toE_lt_top 0)

/- Folded maxima and minima are invariant under permutation. -/

lemma foldr_max_perm : ∀ {l1 l2 : List EInt}, l1.Perm l2 →
    l1.foldr max ⊥ = l2.foldr max ⊥ := by
  intro l1 l2 h
  induction h with
  | nil => rfl
  | cons x _ ih => simp [ih]
  | swap x y l => simp only [List.foldr_cons]; rw [max_left_comm]
  | trans _ _ ih1 ih2 => exact ih1.trans ih2

lemma foldr_min_perm : ∀ {l1 l2 : List EInt}, l1.Perm l2 →
    l1.foldr min ⊤ = l2.foldr min ⊤ := by
  intro l1 l2 h
  induction h with
  | nil => rfl
  | cons x _ ih => simp [ih]
  | swap x y l => simp only [List.foldr_cons]; rw [min_left_comm]
  | trans _ _ ih1 ih2 => exact ih1.trans ih2

/- Knuth-Moore style fail-soft bounds for the plain alpha-beta
loops: relative to the fold of the children's true values, the loop
result is exact inside the window and a sound bound outside it. -/

lemma abMaxLoop_km {P Mv : Type} (psh : P → Mv → P) (F : P → EInt → EInt → EInt)
    (p : P) (v : Mv → EInt)
    (HF : ∀ (mv : Mv) (a b : EInt), a < b →
      min (v mv) b ≤ F (psh p mv) a b ∧ F (psh p mv) a b ≤ max (v mv) a) :
    ∀ (l : List Mv) (alpha beta m : EInt) (best : Option Mv), alpha < beta →
      min (max m ((l.map v).foldr max ⊥)) beta ≤
          (Plain.abMaxLoop psh F p l alpha beta m best).1 ∧
        (Plain.abMaxLoop psh F p l alpha beta m best).1 ≤
          max (max m ((l.map v).foldr max ⊥)) alpha := by
  intro l
  induction l with
  | nil =>
    intro alpha beta m best hab
    simp only [Plain.abMaxLoop, List.map_nil, List.foldr_nil]
    rw [max_eq_left bot_le]
    exact ⟨min_le_left _ _, le_max_left _ _⟩
  | cons mv rest ih =>
    intro alpha beta m best hab
    obtain ⟨hs1, hs2⟩ := HF mv alpha beta hab
    simp only [Plain.abMaxLoop, List.map_cons, List.foldr_cons]
    by_cases himp : m < F (psh p mv) alpha beta
    · simp only [if_pos himp]
      by_cases hbr : beta ≤ max alpha (F (psh p mv) alpha beta)
      · simp only [if_pos hbr]
        constructor
        · have hbs : beta ≤ F (psh p mv) alpha beta := by
            rcases le_max_iff.mp hbr with h | h
            · exact absurd (lt_of_le_of_lt h hab) (lt_irrefl beta)
            · exact h
          exact le_trans (min_le_right _ _) hbs
        · refine le_trans hs2 (max_le_max ?_ (le_refl alpha))
          exact le_trans (le_max_left _ _) (le_max_right m _)
      · simp only [if_neg hbr]
        have hab2 : max alpha (F (psh p mv) alpha beta) < beta := not_le.mp hbr
        obtain ⟨ihl, ihu⟩ := ih (max alpha (F (psh p mv) alpha beta)) beta
          (F (psh p mv) alpha beta) (some mv) hab2
        constructor
        · rcases min_le_iff.mp hs1 with hvs | hbs
          · have hV : max m (max (v mv) ((rest.map v).foldr max ⊥)) ≤
                max (F (psh p mv) alpha beta) ((rest.map v).foldr max ⊥) := by
              apply max_le
              · exact le_trans (le_of_lt himp) (le_max_left _ _)
              · exact max_le (le_trans hvs (le_max_left _ _)) (le_max_right _ _)
            exact le_trans (min_le_min hV (le_refl beta)) ihl
          · have h2 : beta ≤ max (F (psh p mv) alpha beta) ((rest.map v).foldr max ⊥) :=
              le_trans hbs (le_max_left _ _)
            calc min (max m (max (v mv) ((rest.map v).foldr max ⊥))) beta ≤ beta :=
                  min_le_right _ _
              _ = min (max (F (psh p mv) alpha beta) ((rest.map v).foldr max ⊥)) beta :=
                  (min_eq_right h2).symm
              _ ≤ _ := ihl
        · have hsV : F (psh p mv) alpha beta ≤
              max (max m (max (v mv) ((rest.map v).foldr max ⊥))) alpha := by
            refine le_trans hs2 (max_le_max ?_ (le_refl alpha))
            exact le_trans (le_max_left _ _) (le_max_right m _)
          have hWV : (rest.map v).foldr max ⊥ ≤
              max (max m (max (v mv) ((rest.map v).foldr max ⊥))) alpha :=
            le_trans (le_trans (le_max_right (v mv) _) (le_max_right m _)) (le_max_left _ _)
          refine le_trans ihu (max_le (max_le hsV hWV) (max_le ?_ hsV))
          exact le_max_right _ _
    · simp only [if_neg himp]
      have hsm : F (psh p mv) alpha beta ≤ m := not_lt.mp himp
      by_cases hbr : beta ≤ max alpha m
      · simp only [if_pos hbr]
        constructor
        · have hbm : beta ≤ m := by
            rcases le_max_iff.mp hbr with h | h
            · exact absurd (lt_of_le_of_lt h hab) (lt_irrefl beta)
            · exact h
          exact le_trans (min_le_right _ _) hbm
        · exact le_trans (le_max_left m _) (le_max_left _ alpha)
      · simp only [if_neg hbr]
        have hab2 : max alpha m < beta := not_le.mp hbr
        obtain ⟨ihl, ihu⟩ := ih (max alpha m) beta m best hab2
        constructor
        · rcases min_le_iff.mp hs1 with hvs | hbs
          · have hV : max m (max (v mv) ((rest.map v).foldr max ⊥)) ≤
                max m ((rest.map v).foldr max ⊥) := by
              apply max_le
              · exact le_max_left _ _
              · exact max_le (le_trans hvs (le_trans hsm (le_max_left _ _)))
                  (le_max_right _ _)
            exact le_trans (min_le_min hV (le_refl beta)) ihl
          · have h2 : beta ≤ max m ((rest.map v).foldr max ⊥) :=
              le_trans (le_trans hbs hsm) (le_max_left _ _)
            calc min (max m (max (v mv) ((rest.map v).foldr max ⊥))) beta ≤ beta :=
                  min_le_right _ _
              _ = min (max m ((rest.map v).foldr max ⊥)) beta := (min_eq_right h2).symm
              _ ≤ _ := ihl
        · have hmV : m ≤ max (max m (max (v mv) ((rest.map v).foldr max ⊥))) alpha :=
            le_trans (le_max_left m _) (le_max_left _ alpha)
          have hWV : (rest.map v).foldr max ⊥ ≤
              max (max m (max (v mv) ((rest.map v).foldr max ⊥))) alpha :=
            le_trans (le_trans (le_max_right (v mv) _) (le_max_right m _)) (le_max_left _ _)
          refine le_trans ihu (max_le (max_le hmV hWV) (max_le ?_ hmV))
          exact le_max_right _ _

lemma abMinLoop_km {P Mv : Type} (psh : P → Mv → P) (F : P → EInt → EInt → EInt)
    (p : P) (v : Mv → EInt)
    (HF : ∀ (mv : Mv) (a b : EInt), a < b →
      min (v mv) b ≤ F (psh p mv) a b ∧ F (psh p mv) a b ≤ max (v mv) a) :
    ∀ (l : List Mv) (alpha beta m : EInt) (best : Option Mv), alpha < beta →
      min (min m ((l.map v).foldr min ⊤)) beta ≤
          (Plain.abMinLoop psh F p l alpha beta m best).1 ∧
        (Plain.abMinLoop psh F p l alpha beta m best).1 ≤
          max (min m ((l.map v).foldr min ⊤)) alpha := by
  intro l
  induction l with
  | nil =>
    intro alpha beta m best hab
    simp only [Plain.abMinLoop, List.map_nil, List.foldr_nil]
    rw [min_eq_left le_top]
    exact ⟨min_le_left _ _, le_max_left _ _⟩
  | cons mv rest ih =>
    intro alpha beta m best hab
    obtain ⟨hs1, hs2⟩ := HF mv alpha beta hab
    simp only [Plain.abMinLoop, List.map_cons, List.foldr_cons]
    by_cases himp : F (psh p mv) alpha beta < m
    · simp only [if_pos himp]
      by_cases hbr : min beta (F (psh p mv) alpha beta) ≤ alpha
      · simp only [if_pos hbr]
        constructor
        · have hVs : min (min m (min (v mv) ((rest.map v).foldr min ⊤))) beta ≤
              F (psh p mv) alpha beta := by
            refine le_trans (min_le_min ?_ (le_refl beta)) hs1
            exact le_trans (min_le_right m _) (min_le_left _ _)
          exact hVs
        · have hsa : F (psh p mv) alpha beta ≤ alpha := by
            rcases min_le_iff.mp hbr with h | h
            · exact absurd (lt_of_lt_of_le hab h) (lt_irrefl alpha)
            · exact h
          exact le_trans hsa (le_max_right _ _)
      · simp only [if_neg hbr]
        have hab2 : alpha < min beta (F (psh p mv) alpha beta) := not_le.mp hbr
        obtain ⟨ihl, ihu⟩ := ih alpha (min beta (F (psh p mv) alpha beta))
          (F (psh p mv) alpha beta) (some mv) hab2
        constructor
        · have hVm : min (min m (min (v mv) ((rest.map v).foldr min ⊤))) beta ≤
              min (min (F (psh p mv) alpha beta) ((rest.map v).foldr min ⊤))
                (min beta (F (psh p mv) alpha beta)) := by
            have hVs : min (min m (min (v mv) ((rest.map v).foldr min ⊤))) beta ≤
                F (psh p mv) alpha beta := by
              refine le_trans (min_le_min ?_ (le_refl beta)) hs1
              exact le_trans (min_le_right m _) (min_le_left _ _)
            refine le_min (le_min hVs ?_) (le_min (min_le_right _ _) hVs)
            exact le_trans (min_le_left _ _)
              (le_trans (min_le_right m _) (min_le_right (v mv) _))
          exact le_trans hVm ihl
        · rcases le_max_iff.mp hs2 with hsv | hsa
          · have hV : min (F (psh p mv) alpha beta) ((rest.map v).foldr min ⊤) ≤
                min (min m (min (v mv) ((rest.map v).foldr min ⊤))) ⊤ := by
              rw [min_eq_left le_top]
              refine le_min ?_ ?_
              · exact le_trans (min_le_left _ _) (le_of_lt himp)
              · exact le_min (le_trans (min_le_left _ _) hsv) (min_le_right _ _)
            refine le_trans ihu (max_le ?_ (le_max_right _ _))
            rw [min_eq_left le_top] at hV
            exact le_trans hV (le_max_left _ _)
          · refine le_trans ihu (max_le ?_ (le_max_right _ _))
            have : min (F (psh p mv) alpha beta) ((rest.map v).foldr min ⊤) ≤ alpha :=
              le_trans (min_le_left _ _) hsa
            exact le_trans this (le_max_right _ _)
    · simp only [if_neg himp]
      have hms : m ≤ F (psh p mv) alpha beta := not_lt.mp himp
      by_cases hbr : min beta m ≤ alpha
      · simp only [if_pos hbr]
        constructor
        · exact le_trans (min_le_min (min_le_left m _) (le_refl beta)) (min_le_left m beta)
        · have hma : m ≤ alpha := by
            rcases min_le_iff.mp hbr with h | h
            · exact absurd (lt_of_lt_of_le hab h) (lt_irrefl alpha)
            · exact h
          exact le_trans hma (le_max_right _ _)
      · simp only [if_neg hbr]
        have hab2 : alpha < min beta m := not_le.mp hbr
        obtain ⟨ihl, ihu⟩ := ih alpha (min beta m) m best hab2
        constructor
        · have hVm : min (min m (min (v mv) ((rest.map v).foldr min ⊤))) beta ≤
              min (min m ((rest.map v).foldr min ⊤)) (min beta m) := by
            refine le_min (le_min ?_ ?_) (le_min (min_le_right _ _) ?_)
            · exact le_trans (min_le_left _ _) (min_le_left m _)
            · exact le_trans (min_le_left _ _)
                (le_trans (min_le_right m _) (min_le_right (v mv) _))
            · exact le_trans (min_le_left _ _) (min_le_left m _)
          exact le_trans hVm ihl
        · rcases le_max_iff.mp hs2 with hsv | hsa
          · have hV : min m ((rest.map v).foldr min ⊤) ≤
                min m (min (v mv) ((rest.map v).foldr min ⊤)) := by
              refine le_min (min_le_left _ _) (le_min ?_ (min_le_right _ _))
              exact le_trans (min_le_left _ _) (le_trans hms hsv)
            exact le_trans ihu (max_le (le_trans hV (le_max_left _ _)) (le_max_right _ _))
          · refine le_trans ihu (max_le ?_ (le_max_right _ _))
            have : min m ((rest.map v).foldr min ⊤) ≤ alpha :=
              le_trans (le_trans (min_le_left m _) hms) hsa
            exact le_trans this (le_max_right _ _)

/-- Fail-soft bounds for the plain searcher relative to the minimax
value: exact inside the window, a sound bound outside it. -/
lemma plain_km {P Mv : Type} (r : Rules P Mv) :
    ∀ (d : Nat) (p : P) (alpha beta : EInt), alpha < beta →
      min (mmE r d p) beta ≤ (Plain.minimax_alpha_beta_search r d p alpha beta).1 ∧
        (Plain.minimax_alpha_beta_search r d p alpha beta).1 ≤ max (mmE r d p) alpha := by
  intro d
  induction d with
  | zero =>
    intro p alpha beta _
    simp only [Plain.minimax_alpha_beta_search, mmE]
    exact ⟨min_le_left _ _, le_max_left _ _⟩
  | succ d ih =>
    intro p alpha beta hab
    simp only [Plain.minimax_alpha_beta_search, mmE]
    by_cases hover : r.isGameOver p
    · simp only [if_pos hover]
      exact ⟨min_le_left _ _, le_max_left _ _⟩
    · simp only [if_neg hover]
      by_cases hturn : r.turnWhite p
      · simp only [if_pos hturn]
        have h := abMaxLoop_km r.push
          (fun q a b => (Plain.minimax_alpha_beta_search r d q a b).1) p
          (fun mv => mmE r d (r.push p mv))
          (fun mv a b hab2 => ih (r.push p mv) a b hab2)
          (r.legalMoves p) alpha beta ⊥ none hab
        rwa [max_eq_right bot_le] at h
      · simp only [if_neg hturn]
        have h := abMinLoop_km r.push
          (fun q a b => (Plain.minimax_alpha_beta_search r d q a b).1) p
          (fun mv => mmE r d (r.push p mv))
          (fun mv a b hab2 => ih (r.push p mv) a b hab2)
          (r.legalMoves p) alpha beta ⊤ none hab
        rwa [min_eq_right le_top] at h

/-- With the default full window the plain searcher returns exactly
the minimax value. -/
lemma plain_full {P Mv : Type} (r : Rules P Mv) (d : Nat) (p : P) :
    (Plain.minimax_alpha_beta_search r d p ⊥ ⊤).1 = mmE r d p := by
  have h := plain_km r d p ⊥ ⊤ ebot_lt_etop
  rw [min_eq_left le_top, max_eq_left bot_le] at h
  exact le_antisymm h.2 h.1

/- Value bounds for the budgeted search on mate-free subtrees. -/

lemma mateFree_not_mate {P Mv : Type} (r : Rules P Mv) :
    ∀ (d : Nat) (p : P), mateFree r d p = true → r.isCheckmate p = false := by
  intro d p h
  cases d with
  | zero => simpa [mateFree] using h
  | succ d =>
    simp only [mateFree, Bool.and_eq_true, Bool.not_eq_true'] at h
    exact h.1

lemma mateFree_child {P Mv : Type} (r : Rules P Mv) (d : Nat) (p : P) (mv : Mv)
    (h : mateFree r (d + 1) p = true) (hmv : mv ∈ r.legalMoves p) :
    mateFree r d (r.push p mv) = true := by
  simp only [mateFree, Bool.and_eq_true, List.all_eq_true] at h
  exact h.2 mv hmv

lemma eval_bounds_toE {P Mv : Type} (r : Rules P Mv) (p : P) (d : Nat)
    (h : r.isCheckmate p = false) :
    toE (-57600) ≤ toE (evaluate_position r p d) ∧
      toE (evaluate_position r p d) ≤ toE 57600 := by
  have hb := abs_le.mp (evaluate_not_mate_bound r p d h)
  exact ⟨toE_le_toE.2 hb.1, toE_le_toE.2 hb.2⟩

lemma budMaxLoop_bound {P Mv : Type} (psh : P → Mv → P)
    (F : P → EInt → EInt → Nat → EInt × Nat) (p : P) (thresh : EInt) :
    ∀ (l : List Mv) (alpha beta m : EInt) (best : Option Mv) (n : Nat),
      (∀ mv ∈ l, ∀ (a b : EInt) (nn : Nat),
        toE (-57600) ≤ (F (psh p mv) a b nn).1 ∧ (F (psh p mv) a b nn).1 ≤ toE 57600) →
      (m = ⊥ ∨ (toE (-57600) ≤ m ∧ m ≤ toE 57600)) →
      (l = [] → toE (-57600) ≤ m ∧ m ≤ toE 57600) →
      toE (-57600) ≤ (Budgeted.budMaxLoop psh F p thresh l alpha beta m best n).1.1 ∧
        (Budgeted.budMaxLoop psh F p thresh l alpha beta m best n).1.1 ≤ toE 57600 := by
  intro l
  induction l with
  | nil =>
    intro alpha beta m best n _ _ hnil
    simpa [Budgeted.budMaxLoop] using hnil rfl
  | cons mv rest ih =>
    intro alpha beta m best n hch hm _
    obtain ⟨hslo, hshi⟩ := hch mv (List.mem_cons_self mv rest) alpha beta n
    have hch2 : ∀ mv2 ∈ rest, ∀ (a b : EInt) (nn : Nat),
        toE (-57600) ≤ (F (psh p mv2) a b nn).1 ∧ (F (psh p mv2) a b nn).1 ≤ toE 57600 :=
      fun mv2 h2 => hch mv2 (List.mem_cons_of_mem mv h2)
    simp only [Budgeted.budMaxLoop]
    by_cases himp : m < (F (psh p mv) alpha beta n).1
    · simp only [if_pos himp]
      by_cases hcut : thresh ≤ (F (psh p mv) alpha beta n).1
      · simp only [if_pos hcut]; exact ⟨hslo, hshi⟩
      · simp only [if_neg hcut]
        by_cases hbr : beta ≤ max alpha (F (psh p mv) alpha beta n).1
        · simp only [if_pos hbr]; exact ⟨hslo, hshi⟩
        · simp only [if_neg hbr]
          exact ih _ _ _ _ _ hch2 (Or.inr ⟨hslo, hshi⟩) (fun _ => ⟨hslo, hshi⟩)
    · have hmB : toE (-57600) ≤ m ∧ m ≤ toE 57600 := by
        rcases hm with hbot | hb
        · exfalso
          rw [hbot] at himp
          exact himp (lt_of_lt_of_le (bot_lt_toE (-57600)) hslo)
        · exact hb
      simp only [if_neg himp]
      by_cases hbr : beta ≤ max alpha m
      · simp only [if_pos hbr]; exact hmB
      · simp only [if_neg hbr]
        exact ih _ _ _ _ _ hch2 (Or.inr hmB) (fun _ => hmB)

lemma budMinLoop_bound {P Mv : Type} (psh : P → Mv → P)
    (F : P → EInt → EInt → Nat → EInt × Nat) (p : P) (thresh : EInt) :
    ∀ (l : List Mv) (alpha beta m : EInt) (best : Option Mv) (n : Nat),
      (∀ mv ∈ l, ∀ (a b : EInt) (nn : Nat),
        toE (-57600) ≤ (F (psh p mv) a b nn).1 ∧ (F (psh p mv) a b nn).1 ≤ toE 57600) →
      (m = ⊤ ∨ (toE (-57600) ≤ m ∧ m ≤ toE 57600)) →
      (l = [] → toE (-57600) ≤ m ∧ m ≤ toE 57600) →
      toE (-57600) ≤ (Budgeted.budMinLoop psh F p thresh l alpha beta m best n).1.1 ∧
        (Budgeted.budMinLoop psh F p thresh l alpha beta m best n).1.1 ≤ toE 57600 := by
  intro l
  induction l with
  | nil =>
    intro alpha beta m best n _ _ hnil
    simpa [Budgeted.budMinLoop] using hnil rfl
  | cons mv rest ih =>
    intro alpha beta m best n hch hm _
    obtain ⟨hslo, hshi⟩ := hch mv (List.mem_cons_self mv rest) alpha beta n
    have hch2 : ∀ mv2 ∈ rest, ∀ (a b : EInt) (nn : Nat),
        toE (-57600) ≤ (F (psh p mv2) a b nn).1 ∧ (F (psh p mv2) a b nn).1 ≤ toE 57600 :=
      fun mv2 h2 => hch mv2 (List.mem_cons_of_mem mv h2)
    simp only [Budgeted.budMinLoop]
    by_cases himp : (F (psh p mv) alpha beta n).1 < m
    · simp only [if_pos himp]
      by_cases hcut : (F (psh p mv) alpha beta n).1 ≤ thresh
      · simp only [if_pos hcut]; exact ⟨hslo, hshi⟩
      · simp only [if_neg hcut]
        by_cases hbr : min beta (F (psh p mv) alpha beta n).1 ≤ alpha
        · simp only [if_pos hbr]; exact ⟨hslo, hshi⟩
        · simp only [if_neg hbr]
          exact ih _ _ _ _ _ hch2 (Or.inr ⟨hslo, hshi⟩) (fun _ => ⟨hslo, hshi⟩)
    · have hmB : toE (-57600) ≤ m ∧ m ≤ toE 57600 := by
        rcases hm with htop | hb
        · exfalso
          rw [htop] at himp
          exact himp (lt_of_le_of_lt hshi (toE_lt_top 57600))
        · exact hb
      simp only [if_neg himp]
      by_cases hbr : min beta m ≤ alpha
      · simp only [if_pos hbr]; exact hmB
      · simp only [if_neg hbr]
        exact ih _ _ _ _ _ hch2 (Or.inr hmB) (fun _ => hmB)

/-- On a mate-free subtree of a closed rules engine (no legal moves
implies game over) the budgeted search's score always lies within the
material bounds, through every exit path. -/
lemma bud_bound {P Mv : Type} (r : Rules P Mv) (maxN : Nat)
    (Hclosed : ∀ q : P, r.legalMoves q = [] → r.isGameOver q = true) :
    ∀ (d : Nat) (p : P) (alpha beta : EInt) (n : Nat), mateFree r d p = true →
      toE (-57600) ≤ (Budgeted.minimax_alpha_beta_search r maxN d p alpha beta n).1.1 ∧
        (Budgeted.minimax_alpha_beta_search r maxN d p alpha beta n).1.1 ≤ toE 57600 := by
  intro d
  induction d with
  | zero =>
    intro p alpha beta n hmf
    simpa [Budgeted.minimax_alpha_beta_search] using
      eval_bounds_toE r p 0 (mateFree_not_mate r 0 p hmf)
  | succ d ih =>
    intro p alpha beta n hmf
    have hcm := mateFree_not_mate r (d + 1) p hmf
    simp only [Budgeted.minimax_alpha_beta_search]
    by_cases hbud : maxN < n + 1
    · simpa [if_pos hbud] using eval_bounds_toE r p (d + 1) hcm
    · simp only [if_neg hbud]
      by_cases hover : r.isGameOver p
      · simpa [if_pos hover] using eval_bounds_toE r p (d + 1) hcm
      · simp only [if_neg hover]
        have hne : ordered_moves r p ≠ [] := by
          intro h0
          have hperm := sortKeyed_perm (score_move r p) (r.legalMoves p)
          rw [show sortKeyed (score_move r p) (r.legalMoves p) = ordered_moves r p from
            rfl, h0] at hperm
          exact absurd (Hclosed p hperm.symm.eq_nil) (by simpa using hover)
        have hmem : ∀ mv ∈ ordered_moves r p, mv ∈ r.legalMoves p :=
          fun mv h2 => ((sortKeyed_perm (score_move r p) (r.legalMoves p)).mem_iff).1 h2
        by_cases hturn : r.turnWhite p
        · simp only [if_pos hturn]
          apply budMaxLoop_bound
          · intro mv hmv a b nn
            exact ih (r.push p mv) a b nn
              (mateFree_child r d p mv hmf (hmem mv hmv))
          · exact Or.inl rfl
          · intro h0; exact absurd h0 hne
        · simp only [if_neg hturn]
          apply budMinLoop_bound
          · intro mv hmv a b nn
            exact ih (r.push p mv) a b nn
              (mateFree_child r d p mv hmf (hmem mv hmv))
          · exact Or.inl rfl
          · intro h0; exact absurd h0 hne

/- Knuth-Moore style bounds for the budgeted loops: when no child
score can reach the early-mate-cutoff threshold and the node budget
is never exceeded, the budgeted loop satisfies the same fail-soft
bounds as the plain loop. -/

lemma budMaxLoop_km {P Mv : Type} (psh : P → Mv → P)
    (F : P → EInt → EInt → Nat → EInt × Nat) (p : P) (thresh : EInt) (v : Mv → EInt)
    (maxN : Nat)
    (HFmono : ∀ (q : P) (a b : EInt) (nn : Nat), nn ≤ (F q a b nn).2)
    (hth : toE 57600 < thresh) :
    ∀ (l : List Mv) (alpha beta m : EInt) (best : Option Mv) (n : Nat),
      (∀ mv ∈ l, ∀ (a b : EInt) (nn : Nat), a < b → (F (psh p mv) a b nn).2 ≤ maxN →
        min (v mv) b ≤ (F (psh p mv) a b nn).1 ∧ (F (psh p mv) a b nn).1 ≤ max (v mv) a) →
      (∀ mv ∈ l, ∀ (a b : EInt) (nn : Nat), (F (psh p mv) a b nn).1 ≤ toE 57600) →
      alpha < beta →
      (Budgeted.budMaxLoop psh F p thresh l alpha beta m best n).2 ≤ maxN →
      min (max m ((l.map v).foldr max ⊥)) beta ≤
          (Budgeted.budMaxLoop psh F p thresh l alpha beta m best n).1.1 ∧
        (Budgeted.budMaxLoop psh F p thresh l alpha beta m best n).1.1 ≤
          max (max m ((l.map v).foldr max ⊥)) alpha := by
  intro l
  induction l with
  | nil =>
    intro alpha beta m best n _ _ hab _
    simp only [Budgeted.budMaxLoop, List.map_nil, List.foldr_nil]
    rw [max_eq_left bot_le]
    exact ⟨min_le_left _ _, le_max_left _ _⟩
  | cons mv rest ih =>
    intro alpha beta m best n hch hfb hab hbud
    have hcutn : ¬ thresh ≤ (F (psh p mv) alpha beta n).1 :=
      not_le.2 (lt_of_le_of_lt (hfb mv (List.mem_cons_self mv rest) alpha beta n) hth)
    have hch2 : ∀ mv2 ∈ rest, ∀ (a b : EInt) (nn : Nat), a < b →
        (F (psh p mv2) a b nn).2 ≤ maxN →
        min (v mv2) b ≤ (F (psh p mv2) a b nn).1 ∧
          (F (psh p mv2) a b nn).1 ≤ max (v mv2) a :=
      fun mv2 h2 => hch mv2 (List.mem_cons_of_mem mv h2)
    have hfb2 : ∀ mv2 ∈ rest, ∀ (a b : EInt) (nn : Nat),
        (F (psh p mv2) a b nn).1 ≤ toE 57600 :=
      fun mv2 h2 => hfb mv2 (List.mem_cons_of_mem mv h2)
    simp only [Budgeted.budMaxLoop, if_neg hcutn] at hbud ⊢
    simp only [List.map_cons, List.foldr_cons]
    by_cases himp : m < (F (psh p mv) alpha beta n).1
    · simp only [if_pos himp] at hbud ⊢
      by_cases hbr : beta ≤ max alpha (F (psh p mv) alpha beta n).1
      · simp only [if_pos hbr] at hbud ⊢
        have hn2 : (F (psh p mv) alpha beta n).2 ≤ maxN := hbud
        obtain ⟨hs1, hs2⟩ := hch mv (List.mem_cons_self mv rest) alpha beta n hab hn2
        constructor
        · have hbs : beta ≤ (F (psh p mv) alpha beta n).1 := by
            rcases le_max_iff.mp hbr with h | h
            · exact absurd (lt_of_le_of_lt h hab) (lt_irrefl beta)
            · exact h
          exact le_trans (min_le_right _ _) hbs
        · refine le_trans hs2 (max_le_max ?_ (le_refl alpha))
          exact le_trans (le_max_left _ _) (le_max_right m _)
      · simp only [if_neg hbr] at hbud ⊢
        have hn2 : (F (psh p mv) alpha beta n).2 ≤ maxN :=
          le_trans (budMaxLoop_mono psh F p thresh HFmono rest _ _ _ _ _) hbud
        obtain ⟨hs1, hs2⟩ := hch mv (List.mem_cons_self mv rest) alpha beta n hab hn2
        have hab2 : max alpha (F (psh p mv) alpha beta n).1 < beta := not_le.mp hbr
        obtain ⟨ihl, ihu⟩ := ih (max alpha (F (psh p mv) alpha beta n).1) beta
          (F (psh p mv) alpha beta n).1 (some mv) (F (psh p mv) alpha beta n).2
          hch2 hfb2 hab2 hbud
        constructor
        · rcases min_le_iff.mp hs1 with hvs | hbs
          · have hV : max m (max (v mv) ((rest.map v).foldr max ⊥)) ≤
                max (F (psh p mv) alpha beta n).1 ((rest.map v).foldr max ⊥) := by
              apply max_le
              · exact le_trans (le_of_lt himp) (le_max_left _ _)
              · exact max_le (le_trans hvs (le_max_left _ _)) (le_max_right _ _)
            exact le_trans (min_le_min hV (le_refl beta)) ihl
          · have h2 : beta ≤ max (F (psh p mv) alpha beta n).1 ((rest.map v).foldr max ⊥) :=
              le_trans hbs (le_max_left _ _)
            calc min (max m (max (v mv) ((rest.map v).foldr max ⊥))) beta ≤ beta :=
                  min_le_right _ _
              _ = min (max (F (psh p mv) alpha beta n).1 ((rest.map v).foldr max ⊥))
                  beta := (min_eq_right h2).symm
              _ ≤ _ := ihl
        · have hsV : (F (psh p mv) alpha beta n).1 ≤
              max (max m (max (v mv) ((rest.map v).foldr max ⊥))) alpha := by
            refine le_trans hs2 (max_le_max ?_ (le_refl alpha))
            exact le_trans (le_max_left _ _) (le_max_right m _)
          have hWV : (rest.map v).foldr max ⊥ ≤
              max (max m (max (v mv) ((rest.map v).foldr max ⊥))) alpha :=
            le_trans (le_trans (le_max_right (v mv) _) (le_max_right m _)) (le_max_left _ _)
          refine le_trans ihu (max_le (max_le hsV hWV) (max_le ?_ hsV))
          exact le_max_right _ _
    · simp only [if_neg himp] at hbud ⊢
      by_cases hbr : beta ≤ max alpha m
      · simp only [if_pos hbr] at hbud ⊢
        constructor
        · have hbm : beta ≤ m := by
            rcases le_max_iff.mp hbr with h | h
            · exact absurd (lt_of_le_of_lt h hab) (lt_irrefl beta)
            · exact h
          exact le_trans (min_le_right _ _) hbm
        · exact le_trans (le_max_left m _) (le_max_left _ alpha)
      · simp only [if_neg hbr] at hbud ⊢
        have hn2 : (F (psh p mv) alpha beta n).2 ≤ maxN :=
          le_trans (budMaxLoop_mono psh F p thresh HFmono rest _ _ _ _ _) hbud
        obtain ⟨hs1, hs2⟩ := hch mv (List.mem_cons_self mv rest) alpha beta n hab hn2
        have hsm : (F (psh p mv) alpha beta n).1 ≤ m := not_lt.mp himp
        have hab2 : max alpha m < beta := not_le.mp hbr
        obtain ⟨ihl, ihu⟩ := ih (max alpha m) beta m best (F (psh p mv) alpha beta n).2
          hch2 hfb2 hab2 hbud
        constructor
        · rcases min_le_iff.mp hs1 with hvs | hbs
          · have hV : max m (max (v mv) ((rest.map v).foldr max ⊥)) ≤
                max m ((rest.map v).foldr max ⊥) := by
              apply max_le
              · exact le_max_left _ _
              · exact max_le (le_trans hvs (le_trans hsm (le_max_left _ _)))
                  (le_max_right _ _)
            exact le_trans (min_le_min hV (le_refl beta)) ihl
          · have h2 : beta ≤ max m ((rest.map v).foldr max ⊥) :=
              le_trans (le_trans hbs hsm) (le_max_left _ _)
            calc min (max m (max (v mv) ((rest.map v).foldr max ⊥))) beta ≤ beta :=
                  min_le_right _ _
              _ = min (max m ((rest.map v).foldr max ⊥)) beta := (min_eq_right h2).symm
              _ ≤ _ := ihl
        · have hmV : m ≤ max (max m (max (v mv) ((rest.map v).foldr max ⊥))) alpha :=
            le_trans (le_max_left m _) (le_max_left _ alpha)
          have hWV : (rest.map v).foldr max ⊥ ≤
              max (max m (max (v mv) ((rest.map v).foldr max ⊥))) alpha :=
            le_trans (le_trans (le_max_right (v mv) _) (le_max_right m _)) (le_max_left _ _)
          refine le_trans ihu (max_le (max_le hmV hWV) (max_le ?_ hmV))
          exact le_max_right _ _

lemma budMinLoop_km {P Mv : Type} (psh : P → Mv → P)
    (F : P → EInt → EInt → Nat → EInt × Nat) (p : P) (thresh : EInt) (v : Mv → EInt)
    (maxN : Nat)
    (HFmono : ∀ (q : P) (a b : EInt) (nn : Nat), nn ≤ (F q a b nn).2)
    (hth : thresh < toE (-57600)) :
    ∀ (l : List Mv) (alpha beta m : EInt) (best : Option Mv) (n : Nat),
      (∀ mv ∈ l, ∀ (a b : EInt) (nn : Nat), a < b → (F (psh p mv) a b nn).2 ≤ maxN →
        min (v mv) b ≤ (F (psh p mv) a b nn).1 ∧ (F (psh p mv) a b nn).1 ≤ max (v mv) a) →
      (∀ mv ∈ l, ∀ (a b : EInt) (nn : Nat), toE (-57600) ≤ (F (psh p mv) a b nn).1) →
      alpha < beta →
      (Budgeted.budMinLoop psh F p thresh l alpha beta m best n).2 ≤ maxN →
      min (min m ((l.map v).foldr min ⊤)) beta ≤
          (Budgeted.budMinLoop psh F p thresh l alpha beta m best n).1.1 ∧
        (Budgeted.budMinLoop psh F p thresh l alpha beta m best n).1.1 ≤
          max (min m ((l.map v).foldr min ⊤)) alpha := by
  intro l
  induction l with
  | nil =>
    intro alpha beta m best n _ _ hab _
    simp only [Budgeted.budMinLoop, List.map_nil, List.foldr_nil]
    rw [min_eq_left le_top]
    exact ⟨min_le_left _ _, le_max_left _ _⟩
  | cons mv rest ih =>
    intro alpha beta m best n hch hfb hab hbud
    have hcutn : ¬ (F (psh p mv) alpha beta n).1 ≤ thresh :=
      not_le.2 (lt_of_lt_of_le hth (hfb mv (List.mem_cons_self mv rest) alpha beta n))
    have hch2 : ∀ mv2 ∈ rest, ∀ (a b : EInt) (nn : Nat), a < b →
        (F (psh p mv2) a b nn).2 ≤ maxN →
        min (v mv2) b ≤ (F (psh p mv2) a b nn).1 ∧
          (F (psh p mv2) a b nn).1 ≤ max (v mv2) a :=
      fun mv2 h2 => hch mv2 (List.mem_cons_of_mem mv h2)
    have hfb2 : ∀ mv2 ∈ rest, ∀ (a b : EInt) (nn : Nat),
        toE (-57600) ≤ (F (psh p mv2) a b nn).1 :=
      fun mv2 h2 => hfb mv2 (List.mem_cons_of_mem mv h2)
    simp only [Budgeted.budMinLoop, if_neg hcutn] at hbud ⊢
    simp only [List.map_cons, List.foldr_cons]
    by_cases himp : (F (psh p mv) alpha beta n).1 < m
    · simp only [if_pos himp] at hbud ⊢
      by_cases hbr : min beta (F (psh p mv) alpha beta n).1 ≤ alpha
      · simp only [if_pos hbr] at hbud ⊢
        have hn2 : (F (psh p mv) alpha beta n).2 ≤ maxN := hbud
        obtain ⟨hs1, hs2⟩ := hch mv (List.mem_cons_self mv rest) alpha beta n hab hn2
        constructor
        · refine le_trans (min_le_min ?_ (le_refl beta)) hs1
          exact le_trans (min_le_right m _) (min_le_left _ _)
        · have hsa : (F (psh p mv) alpha beta n).1 ≤ alpha := by
            rcases min_le_iff.mp hbr with h | h
            · exact absurd (lt_of_lt_of_le hab h) (lt_irrefl alpha)
            · exact h
          exact le_trans hsa (le_max_right _ _)
      · simp only [if_neg hbr] at hbud ⊢
        have hn2 : (F (psh p mv) alpha beta n).2 ≤ maxN :=
          le_trans (budMinLoop_mono psh F p thresh HFmono rest _ _ _ _ _) hbud
        obtain ⟨hs1, hs2⟩ := hch mv (List.mem_cons_self mv rest) alpha beta n hab hn2
        have hab2 : alpha < min beta (F (psh p mv) alpha beta n).1 := not_le.mp hbr
        obtain ⟨ihl, ihu⟩ := ih alpha (min beta (F (psh p mv) alpha beta n).1)
          (F (psh p mv) alpha beta n).1 (some mv) (F (psh p mv) alpha beta n).2
          hch2 hfb2 hab2 hbud
        constructor
        · have hVs : min (min m (min (v mv) ((rest.map v).foldr min ⊤))) beta ≤
              (F (psh p mv) alpha beta n).1 := by
            refine le_trans (min_le_min ?_ (le_refl beta)) hs1
            exact le_trans (min_le_right m _) (min_le_left _ _)
          have hVm : min (min m (min (v mv) ((rest.map v).foldr min ⊤))) beta ≤
              min (min (F (psh p mv) alpha beta n).1 ((rest.map v).foldr min ⊤))
                (min beta (F (psh p mv) alpha beta n).1) := by
            refine le_min (le_min hVs ?_) (le_min (min_le_right _ _) hVs)
            exact le_trans (min_le_left _ _)
              (le_trans (min_le_right m _) (min_le_right (v mv) _))
          exact le_trans hVm ihl
        · rcases le_max_iff.mp hs2 with hsv | hsa
          · have hV : min (F (psh p mv) alpha beta n).1 ((rest.map v).foldr min ⊤) ≤
                min m (min (v mv) ((rest.map v).foldr min ⊤)) := by
              refine le_min ?_ ?_
              · exact le_trans (min_le_left _ _) (le_of_lt himp)
              · exact le_min (le_trans (min_le_left _ _) hsv) (min_le_right _ _)
            refine le_trans ihu (max_le ?_ (le_max_right _ _))
            exact le_trans hV (le_max_left _ _)
          · refine le_trans ihu (max_le ?_ (le_max_right _ _))
            have hV : min (F (psh p mv) alpha beta n).1 ((rest.map v).foldr min ⊤) ≤
                alpha := le_trans (min_le_left _ _) hsa
            exact le_trans hV (le_max_right _ _)
    · simp only [if_neg himp] at hbud ⊢
      have hms : m ≤ (F (psh p mv) alpha beta n).1 := not_lt.mp himp
      by_cases hbr : min beta m ≤ alpha
      · simp only [if_pos hbr] at hbud ⊢
        constructor
        · exact le_trans (min_le_min (min_le_left m _) (le_refl beta)) (min_le_left m beta)
        · have hma : m ≤ alpha := by
            rcases min_le_iff.mp hbr with h | h
            · exact absurd (lt_of_lt_of_le hab h) (lt_irrefl alpha)
            · exact h
          exact le_trans hma (le_max_right _ _)
      · simp only [if_neg hbr] at hbud ⊢
        have hn2 : (F (psh p mv) alpha beta n).2 ≤ maxN :=
          le_trans (budMinLoop_mono psh F p thresh HFmono rest _ _ _ _ _) hbud
        obtain ⟨hs1, hs2⟩ := hch mv (List.mem_cons_self mv rest) alpha beta n hab hn2
        have hab2 : alpha < min beta m := not_le.mp hbr
        obtain ⟨ihl, ihu⟩ := ih alpha (min beta m) m best (F (psh p mv) alpha beta n).2
          hch2 hfb2 hab2 hbud
        constructor
        · have hVm : min (min m (min (v mv) ((rest.map v).foldr min ⊤))) beta ≤
              min (min m ((rest.map v).foldr min ⊤)) (min beta m) := by
            refine le_min (le_min ?_ ?_) (le_min (min_le_right _ _) ?_)
            · exact le_trans (min_le_left _ _) (min_le_left m _)
            · exact le_trans (min_le_left _ _)
                (le_trans (min_le_right m _) (min_le_right (v mv) _))
            · exact le_trans (min_le_left _ _) (min_le_left m _)
          exact le_trans hVm ihl
        · rcases le_max_iff.mp hs2 with hsv | hsa
          · have hV : min m ((rest.map v).foldr min ⊤) ≤
                min m (min (v mv) ((rest.map v).foldr min ⊤)) := by
              refine le_min (min_le_left _ _) (le_min ?_ (min_le_right _ _))
              exact le_trans (min_le_left _ _) (le_trans hms hsv)
            exact le_trans ihu (max_le (le_trans hV (le_max_left _ _)) (le_max_right _ _))
          · refine le_trans ihu (max_le ?_ (le_max_right _ _))
            have hV : min m ((rest.map v).foldr min ⊤) ≤ alpha :=
              le_trans (le_trans (min_le_left m _) hms) hsa
            exact le_trans hV (le_max_right _ _)

/-- Fail-soft bounds for the budgeted searcher relative to the
minimax value, provided the engine is closed (no legal moves implies
game over), the subtree is mate-free within the search depth, the
depth is below the threshold at which material scores could fake a
mate cutoff, and the node budget is never exceeded during the
call. -/
lemma bud_km {P Mv : Type} (r : Rules P Mv) (maxN : Nat)
    (Hclosed : ∀ q : P, r.legalMoves q = [] → r.isGameOver q = true) :
    ∀ (d : Nat) (p : P) (alpha beta : EInt) (n : Nat), mateFree r d p = true →
      ((d : ℤ) ≤ 42399) → alpha < beta →
      (Budgeted.minimax_alpha_beta_search r maxN d p alpha beta n).2 ≤ maxN →
      min (mmE r d p) beta ≤
          (Budgeted.minimax_alpha_beta_search r maxN d p alpha beta n).1.1 ∧
        (Budgeted.minimax_alpha_beta_search r maxN d p alpha beta n).1.1 ≤
          max (mmE r d p) alpha := by
  intro d
  induction d with
  | zero =>
    intro p alpha beta n _ _ _ _
    simp only [Budgeted.minimax_alpha_beta_search, mmE]
    exact ⟨min_le_left _ _, le_max_left _ _⟩
  | succ d ih =>
    intro p alpha beta n hmf hd hab hbud
    simp only [Budgeted.minimax_alpha_beta_search] at hbud ⊢
    push_cast at hd
    by_cases hbudx : maxN < n + 1
    · rw [if_pos hbudx] at hbud
      simp at hbud
      omega
    · rw [if_neg hbudx] at hbud ⊢
      by_cases hover : r.isGameOver p
      · rw [if_pos hover] at hbud ⊢
        simp only [mmE, if_pos hover]
        exact ⟨min_le_left _ _, le_max_left _ _⟩
      · rw [if_neg hover] at hbud ⊢
        have hperm : (ordered_moves r p).Perm (r.legalMoves p) :=
          sortKeyed_perm (score_move r p) (r.legalMoves p)
        have hmem : ∀ mv ∈ ordered_moves r p, mv ∈ r.legalMoves p :=
          fun mv h2 => hperm.mem_iff.1 h2
        have HFmono : ∀ (q : P) (a b : EInt) (nn : Nat),
            nn ≤ (Budgeted.minimax_alpha_beta_search r maxN d q a b nn).2 :=
          fun q a b nn => le_trans (Nat.le_succ nn) (search_nodes_mono r maxN d q a b nn)
        have hch : ∀ mv ∈ ordered_moves r p, ∀ (a b : EInt) (nn : Nat), a < b →
            (Budgeted.minimax_alpha_beta_search r maxN d (r.push p mv) a b nn).2 ≤ maxN →
            min (mmE r d (r.push p mv)) b ≤
                (Budgeted.minimax_alpha_beta_search r maxN d (r.push p mv) a b nn).1.1 ∧
              (Budgeted.minimax_alpha_beta_search r maxN d (r.push p mv) a b nn).1.1 ≤
                max (mmE r d (r.push p mv)) a :=
          fun mv hmv a b nn hab2 hb2 =>
            ih (r.push p mv) a b nn (mateFree_child r d p mv hmf (hmem mv hmv))
              (by omega) hab2 hb2
        have hbnd : ∀ mv ∈ ordered_moves r p, ∀ (a b : EInt) (nn : Nat),
            toE (-57600) ≤
                (Budgeted.minimax_alpha_beta_search r maxN d (r.push p mv) a b nn).1.1 ∧
              (Budgeted.minimax_alpha_beta_search r maxN d (r.push p mv) a b nn).1.1 ≤
                toE 57600 :=
          fun mv hmv a b nn =>
            bud_bound r maxN Hclosed d (r.push p mv) a b nn
              (mateFree_child r d p mv hmf (hmem mv hmv))
        by_cases hturn : r.turnWhite p
        · rw [if_pos hturn] at hbud ⊢
          have hth : toE 57600 < toE (MATE_SCORE - ((d : ℤ) + 1)) := by
            rw [toE_lt_toE]
            unfold MATE_SCORE
            omega
          have h := budMaxLoop_km r.push
            (fun q a b nn =>
              ((Budgeted.minimax_alpha_beta_search r maxN d q a b nn).1.1,
                (Budgeted.minimax_alpha_beta_search r maxN d q a b nn).2))
            p (toE (MATE_SCORE - ((d : ℤ) + 1)))
            (fun mv => mmE r d (r.push p mv)) maxN HFmono hth
            (ordered_moves r p) alpha beta ⊥ none (n + 1)
            (fun mv hmv a b nn hab2 hb2 => hch mv hmv a b nn hab2 hb2)
            (fun mv hmv a b nn => (hbnd mv hmv a b nn).2) hab hbud
          rw [max_eq_right bot_le,
            foldr_max_perm (hperm.map (fun mv => mmE r d (r.push p mv)))] at h
          simpa only [mmE, if_neg hover, if_pos hturn] using h
        · rw [if_neg hturn] at hbud ⊢
          have hth : toE (-MATE_SCORE + ((d : ℤ) + 1)) < toE (-57600) := by
            rw [toE_lt_toE]
            unfold MATE_SCORE
            omega
          have h := budMinLoop_km r.push
            (fun q a b nn =>
              ((Budgeted.minimax_alpha_beta_search r maxN d q a b nn).1.1,
                (Budgeted.minimax_alpha_beta_search r maxN d q a b nn).2))
            p (toE (-MATE_SCORE + ((d : ℤ) + 1)))
            (fun mv => mmE r d (r.push p mv)) maxN HFmono hth
            (ordered_moves r p) alpha beta ⊤ none (n + 1)
            (fun mv hmv a b nn hab2 hb2 => hch mv hmv a b nn hab2 hb2)
            (fun mv hmv a b nn => (hbnd mv hmv a b nn).1) hab hbud
          rw [min_eq_right le_top,
            foldr_min_perm (hperm.map (fun mv => mmE r d (r.push p mv)))] at h
          simpa only [mmE, if_neg hover, if_neg hturn] using h

/-- With the default full window, on a mate-free subtree of a closed
engine within the depth bound and without exceeding the node budget,
the budgeted searcher also returns exactly the minimax value. -/
lemma bud_full {P Mv : Type} (r : Rules P Mv) (maxN : Nat)
    (Hclosed : ∀ q : P, r.legalMoves q = [] → r.isGameOver q = true)
    (d : Nat) (p : P) (n : Nat) (hmf : mateFree r d p = true)
    (hd : (d : ℤ) ≤ 42399)
    (hbud : (Budgeted.minimax_alpha_beta_search r maxN d p ⊥ ⊤ n).2 ≤ maxN) :
    (Budgeted.minimax_alpha_beta_search r maxN d p ⊥ ⊤ n).1.1 = mmE r d p := by
  have h := bud_km r maxN Hclosed d p ⊥ ⊤ n hmf hd ebot_lt_etop hbud
  rw [min_eq_left le_top, max_eq_left bot_le] at h
  exact le_antisymm h.2 h.1

/-- C10 (amended): the claimed score equivalence of the plain and the
budgeted searchers fails in general, but it holds under the
conditions the counterexamples force: the two searches return the
same score — the minimax value — whenever alpha and beta are the
default full window (not an arbitrary window: fail-soft scores
outside a narrow window are move-order dependent), no checkmate is
reachable within the search depth (so the early mate cutoff, which is
value-changing, never fires; the depth bound keeps material scores
below every cutoff threshold), the node budget is never exceeded
during the call, and the rules engine reports game over on move-less
positions, as real chess engines do. -/
theorem c10_amended {P Mv : Type} (r : Rules P Mv) (maxN d : Nat) (p : P) (n : Nat)
    (Hclosed : ∀ q : P, r.legalMoves q = [] → r.isGameOver q = true)
    (Hmf : mateFree r d p = true) (Hd : (d : ℤ) ≤ 42399)
    (Hbud : (Budgeted.minimax_alpha_beta_search r maxN d p ⊥ ⊤ n).2 ≤ maxN) :
    (Budgeted.minimax_alpha_beta_search r maxN d p ⊥ ⊤ n).1.1 =
      (Plain.minimax_alpha_beta_search r d p ⊥ ⊤).1 := by
  rw [bud_full r maxN Hclosed d p n Hmf Hd Hbud, plain_full r d p]

/-- C10 witness: engine B at depth 1 with ample budget — both
searchers return 300 at the full window. -/
theorem c10_amended_witness :
    (Budgeted.minimax_alpha_beta_search EngB 1000 1 20 ⊥ ⊤ 0).1.1 =
      (Plain.minimax_alpha_beta_search EngB 1 20 ⊥ ⊤).1 := by
  apply c10_amended EngB 1000 1 20 0 ?_ (by decide) (by decide) (by decide)
  intro q hq
  by_cases h : q = 20
  · subst h
    simp [EngB] at hq
  · simp only [EngB] at hq ⊢
    simp [bne_iff_ne, h]

/-- C10 counterexample: first, in engine A from position 10 at the
full window with ample budget the budgeted searcher returns 99998
while the plain searcher returns 100000 (the early mate cutoff stops
at the first mate-scoring sibling); second, even on the mate-free
engine B, with the narrow window (0, 1) the plain search (enumeration
order) returns 100, while the ordered budgeted search returns 300:
with pruning, fail-soft scores outside the window depend on move
order. -/
theorem c10_cex :
    (Budgeted.minimax_alpha_beta_search EngA 1000 3 10 ⊥ ⊤ 0).2 ≤ 1000 ∧
      (Budgeted.minimax_alpha_beta_search EngA 1000 3 10 ⊥ ⊤ 0).1.1 = toE 99998 ∧
      (Plain.minimax_alpha_beta_search EngA 3 10 ⊥ ⊤).1 = toE 100000 ∧
      toE 99998 ≠ toE 100000 ∧
      mateFree EngB 1 20 = true ∧
      (Budgeted.minimax_alpha_beta_search EngB 1000 1 20 (toE 0) (toE 1) 0).2 ≤ 1000 ∧
      (Plain.minimax_alpha_beta_search EngB 1 20 (toE 0) (toE 1)).1 = toE 100 ∧
      (Budgeted.minimax_alpha_beta_search EngB 1000 1 20 (toE 0) (toE 1) 0).1.1 =
        toE 300 ∧
      toE 100 ≠ toE 300 := by
  refine ⟨by decide, by decide, by decide, by decide, by decide, by decide, by decide,
    by decide, by decide⟩

end ChessSolver
